import Mathlib

/-!
Verification development for the SimMeR educational robotics simulator.

This file gives a shallow embedding, in Lean 4, of the core algorithms of the
simulator — the 2D segment collision kernel, the wall-topology optimizer, the
drive kinematics, the collision-gated robot motion, the ultrasonic sensor
model and the wire-protocol packet helpers — and proves (or refutes) the
specification claims about them.

Machine floats of the Python source are modelled as exact numbers: the
geometric kernel and the wall optimizer are stated over an arbitrary linear
ordered field (instantiated at ℚ where concrete evaluation is needed), and
the trigonometric robot/drive/sensor layers are stated over ℝ.
-/

namespace Simmer

/-! ## Geometry kernel (src/utilities.py)

Points are pairs (x, y); segments are pairs of points, matching the Python
representation of nested two-element lists.  The helper functions
on_segment / orientation are duplicated verbatim inside both
utilities.collision and utilities.check_collision_fast in the source; we
define them once and use them in both embeddings.
-/

/-- A 2D point, Python list [x, y]. -/
abbrev Pt (α : Type) := α × α

/-- A 2D line segment, Python list [[x1, y1], [x2, y2]]. -/
abbrev Seg (α : Type) := Pt α × Pt α

variable {α : Type} [LinearOrderedField α]

/-- Embeds on_segment (and the identical onSegment of check_collision_fast):
point q lies in the closed bounding box of segment (p, r). -/
def on_segment (p q r : Pt α) : Bool :=
  decide (q.1 ≤ max p.1 r.1) && decide (min p.1 r.1 ≤ q.1) &&
  decide (q.2 ≤ max p.2 r.2) && decide (min p.2 r.2 ≤ q.2)

/-- The signed value computed inside orientation. -/
def orientVal (p q r : Pt α) : α :=
  (q.2 - p.2) * (r.1 - q.1) - (q.1 - p.1) * (r.2 - q.2)

/-- Embeds orientation: 0 collinear, 1 clockwise, 2 counterclockwise. -/
def orientation (p q r : Pt α) : ℕ :=
  if 0 < orientVal p q r then 1
  else if orientVal p q r < 0 then 2
  else 0

/-- The list of collinear-overlap endpoint candidates gathered by the four
special cases of the inner intersect function of utilities.collision. -/
def collinearPts (p1 q1 p2 q2 : Pt α) : List (Pt α) :=
  (if orientation p1 q1 p2 = 0 ∧ on_segment p1 p2 q1 = true then [p2] else []) ++
  (if orientation p1 q1 q2 = 0 ∧ on_segment p1 q2 q1 = true then [q2] else []) ++
  (if orientation p2 q2 p1 = 0 ∧ on_segment p2 p1 q2 = true then [p1] else []) ++
  (if orientation p2 q2 q1 = 0 ∧ on_segment p2 q1 q2 = true then [q1] else [])

/-- Embeds the inner intersect helper of utilities.collision.  Returns the
(intersects?, collinear points) pair. -/
def intersectSegs (p1 q1 p2 q2 : Pt α) : Bool × List (Pt α) :=
  if orientation p1 q1 p2 ≠ orientation p1 q1 q2 ∧
     orientation p2 q2 p1 ≠ orientation p2 q2 q1 then (true, [])
  else if collinearPts p1 q1 p2 q2 ≠ [] then (true, collinearPts p1 q1 p2 q2)
  else (false, [])

/-- Embeds the det helper of utilities.collision. -/
def det (a b : Pt α) : α :=
  a.1 * b.2 - a.2 * b.1

/-- Embeds utilities.collision: the exact segment-segment intersection,
returning 0, 1 or 2 intersection points. -/
def collision (segment1 segment2 : Seg α) : List (Pt α) :=
  let inter := intersectSegs segment1.1 segment1.2 segment2.1 segment2.2
  if inter.1 then
    if inter.2 = [] then
      let dx : Pt α := (segment1.1.1 - segment1.2.1, segment2.1.1 - segment2.2.1)
      let dy : Pt α := (segment1.1.2 - segment1.2.2, segment2.1.2 - segment2.2.2)
      let div := det dx dy
      if div ≠ 0 then
        let d : Pt α := (det segment1.1 segment1.2, det segment2.1 segment2.2)
        [(det d dx / div, det d dy / div)]
      else []
    else inter.2
  else []

/-- Embeds utilities.check_collision_fast: the boolean-only variant. -/
def check_collision_fast (s1 s2 : Seg α) : Bool :=
  let o1 := orientation s1.1 s1.2 s2.1
  let o2 := orientation s1.1 s1.2 s2.2
  let o3 := orientation s2.1 s2.2 s1.1
  let o4 := orientation s2.1 s2.2 s1.2
  if o1 ≠ o2 ∧ o3 ≠ o4 then true
  else if o1 = 0 ∧ on_segment s1.1 s2.1 s1.2 = true then true
  else if o2 = 0 ∧ on_segment s1.1 s2.2 s1.2 = true then true
  else if o3 = 0 ∧ on_segment s2.1 s1.1 s2.2 = true then true
  else if o4 = 0 ∧ on_segment s2.1 s1.2 s2.2 = true then true
  else false

/-! ## Wall topology optimizer (src/utilities.py, src/maze.py)

Python sorts two-element point lists and lists of segments with the built-in
lexicographic list order; we realize that order through the lexicographic
order on pairs.  Python list.sort is stable, as is List.mergeSort; the
comparator is a total order on the keys, and the keys determine the
segments, so the resulting lists agree element by element.
-/

/-- Strict lexicographic comparison of two points (Python list [x, y] <). -/
def ptLTb (p q : Pt α) : Bool :=
  decide (p.1 < q.1) || (decide (p.1 = q.1) && decide (p.2 < q.2))

/-- Non-strict lexicographic comparison of two points. -/
def ptLEb (p q : Pt α) : Bool :=
  decide (p.1 < q.1) || (decide (p.1 = q.1) && decide (p.2 ≤ q.2))

/-- Non-strict lexicographic order on segments, the order Python list.sort
uses on [[x1, y1], [x2, y2]] values. -/
def segLE (s t : Seg α) : Bool :=
  ptLTb s.1 t.1 || (decide (s.1 = t.1) && ptLEb s.2 t.2)

/-- Lexicographic comparison key of a point, for order-theoretic reasoning. -/
def ptKey (p : Pt α) : Lex (α × α) :=
  toLex p

/-- Lexicographic comparison key of a segment. -/
def segKey (s : Seg α) : Lex (Lex (α × α) × Lex (α × α)) :=
  toLex (ptKey s.1, ptKey s.2)

/-- Embeds line_segments[i].sort(): order the two endpoints of a segment
lexicographically (leftmost, then lowest, first). -/
def sortPts (s : Seg α) : Seg α :=
  if ptLTb s.2 s.1 = true then (s.2, s.1) else s

/-- Embeds ls.sort(key=lambda pt: pt[1]) in merge_vertical_line_segments:
order the two endpoints of a segment by y only (stable, so equal-y keeps
the original endpoint order). -/
def sortPtsByY (s : Seg α) : Seg α :=
  if s.2.2 < s.1.2 then (s.2, s.1) else s

/-- Embeds the Python built-in max on two point values (lexicographic;
returns the second argument only when it is strictly greater). -/
def listMax (p q : Pt α) : Pt α :=
  if ptLTb p q = true then q else p

/-- Embeds utilities.remove_duplicates: keep exactly the elements that occur
once.  The Python loop skips runs of equal elements and keeps a run only if
its length is one and it starts at the first occurrence of its value; on the
sorted lists it is always called with (every call site sorts immediately
before), equal elements are adjacent, and that is the run-based recursion
below. -/
def remove_duplicates {β : Type} [DecidableEq β] : List β → List β
  | [] => []
  | a :: rest =>
    (if rest.takeWhile (fun b => decide (b = a)) = [] then [a] else []) ++
    remove_duplicates (rest.dropWhile (fun b => decide (b = a)))
termination_by l => l.length
decreasing_by
  simp only [List.length_cons]
  exact Nat.lt_succ_of_le (List.dropWhile_sublist _).length_le

/-- Model of the Python float values produced by slopeIntercept: a finite
value, a signed infinity (math.inf enters through the vertical-line branch),
or nan (from 0 * inf). -/
inductive FloatVal (α : Type) where
  | fin (x : α)
  | posInf
  | negInf
  | nan
deriving DecidableEq

/-- Python float equality: nan compares unequal to everything, including
itself; infinities and finite values compare structurally. -/
def floatEq : FloatVal α → FloatVal α → Bool
  | FloatVal.fin a, FloatVal.fin b => decide (a = b)
  | FloatVal.posInf, FloatVal.posInf => true
  | FloatVal.negInf, FloatVal.negInf => true
  | _, _ => false

/-- Embeds utilities.slopeIntercept, with math.inf for a vertical segment
and IEEE semantics for the intercept y0 - inf * x0 computed from it. -/
def slopeIntercept (segment : Seg α) : FloatVal α × FloatVal α :=
  let dx := segment.2.1 - segment.1.1
  if dx = 0 then
    (FloatVal.posInf,
      if 0 < segment.1.1 then FloatVal.negInf
      else if segment.1.1 < 0 then FloatVal.posInf
      else FloatVal.nan)
  else
    let slope := (segment.2.2 - segment.1.2) / dx
    (FloatVal.fin slope, FloatVal.fin (segment.1.2 - slope * segment.1.1))

/-- Python tuple equality of two slopeIntercept results. -/
def siEq (a b : FloatVal α × FloatVal α) : Bool :=
  floatEq a.1 b.1 && floatEq a.2 b.2

/-- The inner j-loop of merge_sloped_line_segments: scan the segments after
position i, breaking as soon as a segment starts right of the current
segment's right endpoint, merging every segment with the same slope and
intercept as segment1 by extending the right endpoint to
max(segment1[1], segment2[1]), and recording merged global indices. -/
def mergeInner (segment1 : Seg α) : Seg α → List (ℕ × Seg α) → List ℕ →
    Seg α × List ℕ
  | cur, [], merged => (cur, merged)
  | cur, (j, segment2) :: rest, merged =>
    if cur.2.1 < segment2.1.1 then (cur, merged)
    else if siEq (slopeIntercept segment1) (slopeIntercept segment2) = true then
      mergeInner segment1 (cur.1, listMax segment1.2 segment2.2) rest (merged ++ [j])
    else
      mergeInner segment1 cur rest merged

/-- The outer i-loop of merge_sloped_line_segments over the globally indexed
deduplicated segment list, skipping indices already merged into an earlier
run. -/
def mergeOuter : List (ℕ × Seg α) → List ℕ → List (Seg α)
  | [], _ => []
  | (i, segment1) :: rest, merged =>
    if i ∈ merged then mergeOuter rest merged
    else
      let r := mergeInner segment1 segment1 rest merged
      r.1 :: mergeOuter rest r.2

/-- Embeds utilities.merge_sloped_line_segments. -/
def merge_sloped_line_segments (line_segments : List (Seg α)) : List (Seg α) :=
  if line_segments = [] then []
  else
    mergeOuter
      (remove_duplicates ((line_segments.map sortPts).mergeSort segLE)).enum []

/-- The merging fold of merge_vertical_line_segments over the deduplicated
sorted vertical segments. -/
def mergeVertFold : Seg α → List (Seg α) → List (Seg α)
  | cur, [] => [cur]
  | cur, nxt :: rest =>
    if cur.1.1 = nxt.1.1 ∧ nxt.1.2 ≤ cur.2.2 then
      mergeVertFold (cur.1, (cur.1.1, max cur.2.2 nxt.2.2)) rest
    else
      cur :: mergeVertFold nxt rest

/-- Embeds utilities.merge_vertical_line_segments.  A non-vertical input
raises ValueError in Python, and an input whose deduplication is empty hits
an IndexError at non_duplicate_segments[0]; both are modelled as none. -/
def merge_vertical_line_segments (line_segments : List (Seg α)) :
    Option (List (Seg α)) :=
  if line_segments = [] then some []
  else if line_segments.all (fun s => decide (s.1.1 = s.2.1)) then
    match remove_duplicates ((line_segments.map sortPtsByY).mergeSort segLE) with
    | [] => none
    | c :: rest => some (mergeVertFold c rest)
  else none

/-- The normalized, lexicographically sorted segment list built at the top
of utilities.optimize_walls. -/
def normalized_sorted (line_segments : List (Seg α)) : List (Seg α) :=
  (line_segments.map sortPts).mergeSort segLE

/-- Number of occurrences of a segment in a list, by structural equality
(the multiplicity counted by Python collections.Counter). -/
def segCount (s : Seg α) (l : List (Seg α)) : ℕ :=
  l.countP (fun t => decide (t = s))

/-- The deduplication step of utilities.optimize_walls: the Counter-based
filter keeps, in first-occurrence (hence sorted) order, exactly the
segments of multiplicity 1. -/
def fewer_segments (line_segments : List (Seg α)) : List (Seg α) :=
  (normalized_sorted line_segments).filter
    (fun e => decide (segCount e (normalized_sorted line_segments) = 1))

/-- Embeds utilities.is_vertical. -/
def is_vertical (line_segment : Seg α) : Bool :=
  decide (line_segment.1.1 = line_segment.2.1)

/-- Embeds utilities.optimize_walls: normalize and sort, drop segments of
multiplicity other than one, partition by verticality, merge each class. -/
def optimize_walls (line_segments : List (Seg α)) : Option (List (Seg α)) :=
  if line_segments = [] then some []
  else
    match merge_vertical_line_segments
        ((fewer_segments line_segments).filter (fun s => is_vertical s)) with
    | none => none
    | some mv =>
      some (merge_sloped_line_segments
        ((fewer_segments line_segments).filter (fun s => !(is_vertical s))) ++ mv)

/-! ## Maze wall emission (Maze.import_walls, src/maze.py)

The grid is a list of rows of integers; a cell value of 0 marks a wall
square.  The dimensions come from numpy shape: number of rows, and length
of the first row.  CONFIG.wall_segment_length is 12 (src/config.py).
-/

/-- Number of grid rows (numpy size along axis 0). -/
def gridDimY (grid : List (List ℤ)) : ℕ :=
  grid.length

/-- Number of grid columns (numpy size along axis 1). -/
def gridDimX (grid : List (List ℤ)) : ℕ :=
  (grid.headD []).length

/-- The cell test wall_map[cy, cx] == 0 of Maze.import_walls. -/
def cellIsWall (grid : List (List ℤ)) (cx cy : ℕ) : Bool :=
  decide ((grid.getD cy []).getD cx 1 = 0)

/-- The four outer boundary segments emitted first by Maze.import_walls. -/
def boundarySquare (dimx dimy : ℕ) : List (Seg ℚ) :=
  [((0, 0), ((dimx : ℚ), 0)),
   (((dimx : ℚ), 0), ((dimx : ℚ), (dimy : ℚ))),
   (((dimx : ℚ), (dimy : ℚ)), (0, (dimy : ℚ))),
   ((0, (dimy : ℚ)), (0, 0))]

/-- The four unit-square segments emitted for an occupied cell. -/
def cellSquare (cx cy : ℕ) : List (Seg ℚ) :=
  [(((cx : ℚ), (cy : ℚ)), ((cx : ℚ) + 1, (cy : ℚ))),
   (((cx : ℚ) + 1, (cy : ℚ)), ((cx : ℚ) + 1, (cy : ℚ) + 1)),
   (((cx : ℚ) + 1, (cy : ℚ) + 1), ((cx : ℚ), (cy : ℚ) + 1)),
   (((cx : ℚ), (cy : ℚ) + 1), ((cx : ℚ), (cy : ℚ)))]

/-- The wall-square list of Maze.import_walls before scaling: the boundary
square first, then one square per occupied cell, x-major, y-inner. -/
def wall_squares (grid : List (List ℤ)) : List (List (Seg ℚ)) :=
  boundarySquare (gridDimX grid) (gridDimY grid) ::
  (List.range (gridDimX grid)).flatMap (fun cx =>
    (List.range (gridDimY grid)).filterMap (fun cy =>
      if cellIsWall grid cx cy then some (cellSquare cx cy) else none))

/-- Scaling a point by CONFIG.wall_segment_length = 12. -/
def scalePt (p : Pt ℚ) : Pt ℚ :=
  (p.1 * 12, p.2 * 12)

/-- Scaling a segment by CONFIG.wall_segment_length = 12. -/
def scaleSeg (s : Seg ℚ) : Seg ℚ :=
  (scalePt s.1, scalePt s.2)

/-- The flattened wall list self.walls of Maze.import_walls after scaling. -/
def maze_walls (grid : List (List ℤ)) : List (Seg ℚ) :=
  ((wall_squares grid).map (fun square => square.map scaleSeg)).flatten

/-! ## Wire protocol framing (TCPServer.depacketize,
src/interface/communication.py)

Strings are modelled as character lists.  CONFIG.frame_start is the
character [ and CONFIG.frame_end is ] (src/config.py). -/

/-- The configured packet start marker. -/
def frame_start : Char :=
  '['

/-- The configured packet end marker. -/
def frame_end : Char :=
  ']'

/-- Embeds Python str.find restricted to a single character: the index of
the first occurrence, none when absent (Python returns -1). -/
def strFind (c : Char) : List Char → Option ℕ
  | [] => none
  | a :: rest => if a = c then some 0 else (strFind c rest).map (· + 1)

/-- Embeds str.replace(frame_start + frame_end, ","): scan left to right,
replacing each non-overlapping occurrence of the two-character pattern []
with a comma. -/
def replaceStartEnd : List Char → List Char
  | [] => []
  | [a] => [a]
  | a :: b :: rest =>
    if a = frame_start ∧ b = frame_end then ',' :: replaceStartEnd rest
    else a :: replaceStartEnd (b :: rest)

/-- Embeds TCPServer.depacketize: find the first start and end markers,
check start >= 0 and end >= start, and return the enclosed slice with the
[] pattern replaced; Python returns False otherwise, modelled as none. -/
def depacketize (data_raw : List Char) : Option (List Char) :=
  match strFind frame_start data_raw, strFind frame_end data_raw with
  | some start, some stop =>
    if start ≤ stop then
      some (replaceStartEnd ((data_raw.drop (start + 1)).take (stop - (start + 1))))
    else none
  | some _, none => none
  | none, _ => none

/-! ## Drive kinematics (src/devices/drive.py, src/devices/device.py,
src/devices/motors.py)

The trigonometric layer is modelled over the reals.  pygame Vector2.rotate
rotates counterclockwise by an angle in degrees; Vector2.angle_to returns
degrees(atan2(other.y, other.x) - atan2(self.y, self.x)); atan2 is the
argument of the complex number x + iy.  CONFIG.frame_rate is 60
(src/config.py).  random.gauss draws are passed in as explicit parameters.
-/

/-- The configured frame rate. -/
def frame_rate : ℝ :=
  60

/-- Counterclockwise rotation of a vector by an angle in degrees
(pygame.math.Vector2.rotate). -/
noncomputable def rotateDeg (v : ℝ × ℝ) (θ : ℝ) : ℝ × ℝ :=
  (v.1 * Real.cos (θ * Real.pi / 180) - v.2 * Real.sin (θ * Real.pi / 180),
   v.1 * Real.sin (θ * Real.pi / 180) + v.2 * Real.cos (θ * Real.pi / 180))

/-- Euclidean length of a vector (pygame.math.Vector2.length). -/
noncomputable def vlen (v : ℝ × ℝ) : ℝ :=
  Real.sqrt (v.1 ^ 2 + v.2 ^ 2)

/-- Two-argument arctangent, as the argument of x + iy. -/
noncomputable def atan2 (y x : ℝ) : ℝ :=
  Complex.arg ⟨x, y⟩

/-- Embeds pygame.math.Vector2.angle_to, in degrees. -/
noncomputable def angle_to (v w : ℝ × ℝ) : ℝ :=
  (atan2 w.2 w.1 - atan2 v.2 v.1) * 180 / Real.pi

/-- Embeds utilities.add_error, with the random.gauss(0, sigma) draw passed
in as g.  An empty bounds list (the default) skips clamping; otherwise the
result is clamped to [bounds[0], bounds[1]]. -/
noncomputable def add_error (value pct_error g : ℝ) (bounds : List ℝ) : ℝ :=
  if bounds = [] then value + g * pct_error * value
  else max (min (bounds.getD 1 0) (value + g * pct_error * value)) (bounds.getD 0 0)

/-- A motor (MotorSimple): its mounting position and rotation on the robot
body and its odometer accumulator. -/
structure Motor where
  position : ℝ × ℝ
  rotation : ℝ
  odometer : ℝ

/-- The motor pointing direction: Vector2(0, 1).rotate(rotation)
(Device.__init__). -/
noncomputable def point_vector (m : Motor) : ℝ × ℝ :=
  rotateDeg (0, 1) m.rotation

/-- The constructor arguments of Drive.__init__ that the kinematics use. -/
structure DriveInfo where
  velocity : ℝ × ℝ
  ang_velocity : ℝ
  motors : List Motor
  motor_direction : List ℝ
  error_x : ℝ
  error_y : ℝ
  error_rotation : ℝ
  bias_x : ℝ
  bias_y : ℝ
  bias_rotation : ℝ

/-- The state of a Drive after initialization. -/
structure Drive where
  velocity : ℝ × ℝ
  rotation_speed : ℝ
  velocity_direction : ℝ × ℝ
  rotation_normalize : ℝ
  motors : List Motor
  motor_direction : List ℝ
  odometer_multiplier : List ℝ
  error_linear : ℝ × ℝ
  error_rotation : ℝ
  bias_linear : ℝ × ℝ
  bias_rotation : ℝ
  move_buffer : ℝ

/-- Embeds Drive._get_odometer_multiplier: per motor, the slip-compensated
odometer increment per drive movement unit. -/
noncomputable def get_odometer_multiplier (velocity velocity_direction : ℝ × ℝ)
    (rotation_speed : ℝ) (motors : List Motor) (motor_direction : List ℝ) :
    List ℝ :=
  (motors.zip motor_direction).map (fun md =>
    if vlen velocity ≠ 0 then
      md.2 / |Real.cos (angle_to velocity_direction (point_vector md.1) * Real.pi / 180)|
    else if rotation_speed ≠ 0 then
      1 / 360 * (2 * Real.pi) * vlen md.1.position * md.2 /
        |Real.cos (angle_to (rotateDeg md.1.position 90) (point_vector md.1) *
          Real.pi / 180)|
    else 0)

/-- Embeds Drive.__init__.  A motors/motor_direction length mismatch raises
RuntimeError, modelled as none. -/
noncomputable def driveInit (info : DriveInfo) : Option Drive :=
  if info.motors.length ≠ info.motor_direction.length then none
  else
    some
      { velocity := (info.velocity.1 / frame_rate, info.velocity.2 / frame_rate)
        rotation_speed := info.ang_velocity / frame_rate
        velocity_direction :=
          if (info.velocity.1 / frame_rate, info.velocity.2 / frame_rate) ≠ (0, 0) then
            ((info.velocity.1 / frame_rate) /
              vlen (info.velocity.1 / frame_rate, info.velocity.2 / frame_rate),
             (info.velocity.2 / frame_rate) /
              vlen (info.velocity.1 / frame_rate, info.velocity.2 / frame_rate))
          else (info.velocity.1 / frame_rate, info.velocity.2 / frame_rate)
        rotation_normalize :=
          if info.ang_velocity / frame_rate ≠ 0 then
            (info.ang_velocity / frame_rate) / (info.ang_velocity / frame_rate)
          else 0
        motors := info.motors
        motor_direction := info.motor_direction
        odometer_multiplier :=
          get_odometer_multiplier
            (info.velocity.1 / frame_rate, info.velocity.2 / frame_rate)
            (if (info.velocity.1 / frame_rate, info.velocity.2 / frame_rate) ≠ (0, 0) then
              ((info.velocity.1 / frame_rate) /
                vlen (info.velocity.1 / frame_rate, info.velocity.2 / frame_rate),
               (info.velocity.2 / frame_rate) /
                vlen (info.velocity.1 / frame_rate, info.velocity.2 / frame_rate))
            else (info.velocity.1 / frame_rate, info.velocity.2 / frame_rate))
            (info.ang_velocity / frame_rate) info.motors info.motor_direction
        error_linear := (info.error_x, info.error_y)
        error_rotation := info.error_rotation
        bias_linear := (info.bias_x, info.bias_y)
        bias_rotation := info.bias_rotation
        move_buffer := 0 }

/-- Embeds Drive.simulate.  The robot-wide drive move buffers (those of
ROBOT.drives.values(), which include this drive) are passed as a list; the
random.gauss draw of add_error is passed as g.  Python mutates shared motor
objects; here the accepted command only writes this drive state. -/
noncomputable def driveSimulate (d : Drive) (robot_drive_buffers : List ℝ)
    (value g : ℝ) : Bool × Drive :=
  if robot_drive_buffers.any (fun b => decide (b ≠ 0)) then (false, d)
  else
    (true,
      { d with move_buffer :=
          (add_error value
            (d.velocity_direction.1 * d.error_linear.1 +
             d.velocity_direction.2 * d.error_linear.2 +
             (if d.rotation_normalize ≠ 0 then
               d.rotation_normalize * d.error_rotation else 0))
            g []) })

/-- Embeds Drive.move_update: clamp the per-frame amount, increment the
zipped motor odometers, decrement the buffer, and return the biased
(displacement, rotation) pair. -/
noncomputable def move_update (d : Drive) : Drive × ((ℝ × ℝ) × ℝ) :=
  let move_amount :=
    if d.move_buffer ≥ 0 then min d.move_buffer (d.rotation_speed + vlen d.velocity)
    else max d.move_buffer (-(d.rotation_speed + vlen d.velocity))
  let motors :=
    (List.zipWith (fun m inc => { m with odometer := m.odometer + move_amount * inc })
      d.motors d.odometer_multiplier) ++ d.motors.drop d.odometer_multiplier.length
  let rotation := if d.rotation_speed ≠ 0 then move_amount else 0
  ({ d with motors := motors, move_buffer := d.move_buffer - move_amount },
   ((d.velocity_direction.1 * move_amount + move_amount * d.bias_linear.1,
     d.velocity_direction.2 * move_amount + move_amount * d.bias_linear.2),
    rotation + move_amount * d.bias_rotation))

/-- Iterated per-frame updates, accumulating the returned displacement and
rotation over n frames (the repeated move_update calls of the claims). -/
noncomputable def move_updates : Drive → ℕ → Drive × ((ℝ × ℝ) × ℝ)
  | d, 0 => (d, ((0, 0), 0))
  | d, n + 1 =>
    ((move_updates (move_update d).1 n).1,
     (((move_update d).2.1.1 + (move_updates (move_update d).1 n).2.1.1,
       (move_update d).2.1.2 + (move_updates (move_update d).1 n).2.1.2),
      (move_update d).2.2 + (move_updates (move_update d).1 n).2.2))

/-- The w0 drive configuration of src/config.py: velocity [0, 6], no
angular velocity, motors m0 at (2, 0) and m1 at (-2, 0) both at rotation 0,
directions [1, 1], zero bias and zero error. -/
def w0_info : DriveInfo :=
  { velocity := (0, 6), ang_velocity := 0,
    motors := [⟨(2, 0), 0, 0⟩, ⟨(-2, 0), 0, 0⟩],
    motor_direction := [1, 1],
    error_x := 0, error_y := 0, error_rotation := 0,
    bias_x := 0, bias_y := 0, bias_rotation := 0 }

/-- The drive state that Drive.__init__ produces from w0_info: 0.1 inches
per frame straight ahead, slip-free odometer multipliers of 1 for both
motors (proved as part of C5). -/
noncomputable def w0_drive : Drive :=
  { velocity := (0, 1 / 10), rotation_speed := 0, velocity_direction := (0, 1),
    rotation_normalize := 0,
    motors := [⟨(2, 0), 0, 0⟩, ⟨(-2, 0), 0, 0⟩], motor_direction := [1, 1],
    odometer_multiplier := [1, 1],
    error_linear := (0, 0), error_rotation := 0,
    bias_linear := (0, 0), bias_rotation := 0,
    move_buffer := 0 }

/-! ## Ultrasonic sensor (src/devices/ultrasonic.py, src/utilities.py)

The sensor scan reuses the exact collision kernel at ℝ.  The nested Python
loop mutates rays[ct] in place, so each wall is tested against the ray as
already shortened by earlier walls.
-/

/-- Embeds utilities.closest_fast on a nonempty candidate list: the closest
point to start together with the squared distance.  Python starts its scan
from math.inf, so the first point always becomes the initial minimum; the
empty case (Python returns ([], nan), never consumed at the call sites) is
given a junk value. -/
noncomputable def closestFastAux (start : Pt ℝ) : List (Pt ℝ) → Pt ℝ × ℝ → Pt ℝ × ℝ
  | [], acc => acc
  | p :: rest, acc =>
    if (p.1 - start.1) ^ 2 + (p.2 - start.2) ^ 2 < acc.2 then
      closestFastAux start rest (p, (p.1 - start.1) ^ 2 + (p.2 - start.2) ^ 2)
    else closestFastAux start rest acc

/-- utilities.closest_fast. -/
noncomputable def closest_fast (start : Pt ℝ) : List (Pt ℝ) → Pt ℝ × ℝ
  | [] => ((0, 0), 0)
  | p :: rest =>
    closestFastAux start rest (p, (p.1 - start.1) ^ 2 + (p.2 - start.2) ^ 2)

/-- Python min() over a list of reals (value semantics; min([]) raises and
is modelled by a junk value, unreachable since num_rays ≥ 1 in use). -/
noncomputable def listMinR : List ℝ → ℝ
  | [] => 0
  | [x] => x
  | x :: y :: rest => min x (listMinR (y :: rest))

/-- The info-dict entries Ultrasonic.__init__ consults (each optional, as
info.get), plus the device pose.  A max_range entry can be present but is
never read by the constructor. -/
structure UltraInfo where
  position_global : ℝ × ℝ
  rotation_global : ℝ
  height : Option ℝ
  beamwidth : Option ℝ
  num_rays : Option ℕ
  min_range : Option ℝ
  max_range : Option ℝ
  error : Option ℝ

/-- The ultrasonic sensor state after construction. -/
structure Ultrasonic where
  height : ℝ
  beamwidth : ℝ
  num_rays : ℕ
  min_range : ℝ
  max_range : ℝ
  error_pct : ℝ
  reading_bounds : List ℝ
  position_global : ℝ × ℝ
  rotation_global : ℝ

/-- Embeds Ultrasonic.__init__ (defaults: height CONFIG.block_size = 3,
beamwidth 15, num_rays 7, min_range 0, error 0.02).  The max-range line of
the source reads the min_range entry: self.max_range =
info.get('min_range', 433). -/
noncomputable def ultrasonicInit (info : UltraInfo) : Ultrasonic :=
  { height := info.height.getD 3,
    beamwidth := info.beamwidth.getD 15,
    num_rays := info.num_rays.getD 7,
    min_range := info.min_range.getD 0,
    max_range := info.min_range.getD 433,
    error_pct := info.error.getD (2 / 100),
    reading_bounds := [info.min_range.getD 0, info.min_range.getD 433],
    position_global := info.position_global,
    rotation_global := info.rotation_global }

/-- Embeds Ultrasonic._define_rays: num_rays rays of length max_range
fanned across the beamwidth around the global rotation. -/
noncomputable def define_rays (u : Ultrasonic) : List (Seg ℝ) :=
  (List.range u.num_rays).map (fun ct =>
    (u.position_global,
     ((rotateDeg (0, u.max_range)
         ((((ct : ℝ) - ((u.num_rays : ℝ) - 1) / 2) / (u.num_rays : ℝ)) * u.beamwidth +
           u.rotation_global)).1 + u.position_global.1,
      (rotateDeg (0, u.max_range)
         ((((ct : ℝ) - ((u.num_rays : ℝ) - 1) / 2) / (u.num_rays : ℝ)) * u.beamwidth +
           u.rotation_global)).2 + u.position_global.2)))

/-- One wall step of the Ultrasonic.simulate scan: if the (current) ray
hits the wall, the ray end and squared length are replaced by the closest
collision point of this wall. -/
noncomputable def scanWall (pos : Pt ℝ) (acc : Seg ℝ × ℝ) (wall : Seg ℝ) : Seg ℝ × ℝ :=
  match collision acc.1 wall with
  | [] => acc
  | p :: ps =>
    ((acc.1.1, (closest_fast pos (p :: ps)).1), (closest_fast pos (p :: ps)).2)

/-- The full wall scan of one ray, starting from max_range squared.  The
Python loop mutates rays[ct] in place, so later walls are tested against
the already-shortened ray. -/
noncomputable def scanRay (pos : Pt ℝ) (walls : List (Seg ℝ)) (ray : Seg ℝ)
    (init_lsq : ℝ) : Seg ℝ × ℝ :=
  walls.foldl (scanWall pos) (ray, init_lsq)

/-- The block parameters Ultrasonic.simulate consults from the BLOCK
environment entry. -/
structure BlockInfo where
  square : List (Seg ℝ)
  height : ℝ
  position : Pt ℝ

/-- Embeds Ultrasonic._block_visible: the block is seen iff the elevation
angle to its top is within half the beamwidth. -/
noncomputable def block_visible (u : Ultrasonic) (B : BlockInfo) : Bool :=
  if Real.arctan ((u.height - B.height) /
      vlen (B.position.1 - u.position_global.1, B.position.2 - u.position_global.2)) *
      180 / Real.pi ≤ u.beamwidth / 2 then true
  else false

/-- Embeds Ultrasonic.simulate: scan every ray against the visible walls
(block square first when the block is visible, then the reduced maze
walls), take sqrt of the minimum squared length, and clamp through
add_error with the reading bounds; the random.gauss draw is g. -/
noncomputable def ultrasonicSimulate (u : Ultrasonic) (B : BlockInfo)
    (reduced_walls : List (Seg ℝ)) (g : ℝ) : ℝ :=
  add_error
    (Real.sqrt (listMinR ((define_rays u).map (fun r =>
      (scanRay u.position_global
        (if block_visible u B then B.square ++ reduced_walls else reduced_walls)
        r (u.max_range ^ 2)).2))))
    u.error_pct g u.reading_bounds

/-- The statistical median, as the specification's words describe it
(statistics.median): middle element of the sorted list, or the mean of the
two middle elements for even length.  Spec-side definition for comparison
with the code's aggregation. -/
noncomputable def medianSpec (l : List ℝ) : ℝ :=
  if l.length % 2 = 1 then
    (l.mergeSort (fun a b => decide (a ≤ b))).getD (l.length / 2) 0
  else
    ((l.mergeSort (fun a b => decide (a ≤ b))).getD (l.length / 2 - 1) 0 +
      (l.mergeSort (fun a b => decide (a ≤ b))).getD (l.length / 2) 0) / 2

/-- A two-ray, full-circle, error-free ultrasonic sensor at the origin:
what Ultrasonic.__init__ builds from beamwidth 360, num_rays 2, error 0
(proved in the C2 counterexample). -/
noncomputable def u_two_ray : Ultrasonic :=
  { height := 3, beamwidth := 360, num_rays := 2, min_range := 0,
    max_range := 433, error_pct := 0, reading_bounds := [0, 433],
    position_global := (0, 0), rotation_global := 0 }

/-- A block of the configured size 3 centered at (0, 50): its four
block_square segments in the Block order, its height and its position. -/
noncomputable def mid_block : BlockInfo :=
  { square := [((-(3 : ℝ) / 2, 97 / 2), (-(3 : ℝ) / 2, 103 / 2)),
      ((-(3 : ℝ) / 2, 103 / 2), (3 / 2, 103 / 2)),
      ((3 / 2, 103 / 2), (3 / 2, 97 / 2)),
      ((3 / 2, 97 / 2), (-(3 : ℝ) / 2, 97 / 2))],
    height := 3, position := (0, 50) }

/-! ## Robot pose and outline (src/robot.py)

The robot layer reuses the boolean collision kernel at ℝ.
-/

/-- The robot state (src/robot.py): pose, local outline, and the cached
world-space outline with its collision segments. -/
structure Robot where
  position : ℝ × ℝ
  rotation : ℝ
  outline : List (Pt ℝ)
  outline_global : List (Pt ℝ)
  outline_global_segments : List (Seg ℝ)

/-- The world-space outline: each local point rotated by the robot rotation
and translated by the robot position (Robot.update_outline, first two
statements). -/
noncomputable def outlineGlobal (outline : List (Pt ℝ)) (position : Pt ℝ)
    (rotation : ℝ) : List (Pt ℝ) :=
  outline.map (fun p =>
    ((rotateDeg p rotation).1 + position.1, (rotateDeg p rotation).2 + position.2))

/-- The closed-polygon segment list of Robot.update_outline: Python's
range(-1, n-1) loop emits (last point, first point) first, then each
consecutive pair. -/
def closedSegments {β : Type} : List β → List (β × β)
  | [] => []
  | p :: rest => (rest.getLastD p, p) :: (p :: rest).zip rest

/-- Embeds Robot.update_outline. -/
noncomputable def update_outline (r : Robot) : Robot :=
  { r with
    outline_global := outlineGlobal r.outline r.position r.rotation,
    outline_global_segments := closedSegments (outlineGlobal r.outline r.position r.rotation) }

/-- Embeds Robot.check_collision_walls_fast: the early-return double loop
is an any-of-any over the fast boolean collision kernel. -/
noncomputable def check_collision_walls_fast (r : Robot) (walls : List (Seg ℝ)) : Bool :=
  r.outline_global_segments.any (fun sb => walls.any (fun sw => check_collision_fast sb sw))

/-- Embeds utilities.in_block: the occupancy of the wall-grid cell holding
the point (12 is CONFIG.wall_segment_length).  Python floor-divides and
indexes CONFIG.walls; the toNat conversion agrees with Python for the
in-maze positions teleport admits. -/
noncomputable def in_block (v : Pt ℝ) (grid : List (List ℤ)) : Bool :=
  cellIsWall grid (⌊v.1 / 12⌋).toNat (⌊v.2 / 12⌋).toNat

/-- Embeds Robot.move.  The forward update rotates the velocity by the
pre-move rotation; the collision rollback subtracts the velocity rotated
by the already-incremented rotation (self.rotation has not been restored
yet at that line). -/
noncomputable def move (r : Robot) (velocity : Pt ℝ) (rotation : ℝ)
    (walls : List (Seg ℝ)) : Robot :=
  let r1 := update_outline { r with
    position := (r.position.1 + (rotateDeg velocity r.rotation).1,
                 r.position.2 + (rotateDeg velocity r.rotation).2),
    rotation := r.rotation + rotation }
  if check_collision_walls_fast r1 walls = true then
    update_outline { r1 with
      position := (r1.position.1 - (rotateDeg velocity r1.rotation).1,
                   r1.position.2 - (rotateDeg velocity r1.rotation).2),
      rotation := r1.rotation - rotation }
  else r1

/-- Embeds Robot.teleport: bounds gate, then block/wall gate; on failure
the previous pose is restored (and the outline recomputed); returns the
success flag with the resulting robot. -/
noncomputable def teleport (r : Robot) (x y angle : ℝ) (walls : List (Seg ℝ))
    (grid : List (List ℤ)) : Bool × Robot :=
  let r1 := update_outline { r with position := (x, y), rotation := angle }
  if ¬(0 < x ∧ x < (gridDimX grid : ℝ) * 12 ∧ 0 < y ∧ y < (gridDimY grid : ℝ) * 12) then
    (false, update_outline { r1 with position := r.position, rotation := r.rotation })
  else if in_block (x, y) grid = false ∧ check_collision_walls_fast r1 walls = false then
    (true, r1)
  else
    (false, update_outline { r1 with position := r.position, rotation := r.rotation })

/-- The outline invariant of C10: the cached world outline and its segment
list match the current pose. -/
def outline_ok (r : Robot) : Prop :=
  r.outline_global = outlineGlobal r.outline r.position r.rotation ∧
  r.outline_global_segments = closedSegments (outlineGlobal r.outline r.position r.rotation)

/-- The ±1 square robot at the origin facing 0 degrees, its outline caches
initialized (the C1 failing input). -/
noncomputable def sq_robot : Robot :=
  update_outline
    { position := (0, 0)
      rotation := 0
      outline := [(-1, -1), (-1, 1), (1, 1), (1, -1)]
      outline_global := []
      outline_global_segments := [] }

/-- The determinant divisor of the crossing-point formula equals the
difference of the two orientation values taken against segment 1. -/
theorem det_dxdy_eq_orientVal_sub (s1 s2 : Seg α) :
    det (s1.1.1 - s1.2.1, s2.1.1 - s2.2.1) (s1.1.2 - s1.2.2, s2.1.2 - s2.2.2) =
      orientVal s1.1 s1.2 s2.1 - orientVal s1.1 s1.2 s2.2 := by
  simp only [det, orientVal]
  ring

/-- Equal orientation values give equal orientation classifications. -/
theorem orientation_eq_of_orientVal_eq {p q r p' q' r' : Pt α}
    (h : orientVal p q r = orientVal p' q' r') :
    orientation p q r = orientation p' q' r' := by
  simp only [orientation, h]

/-- In the general (orientations differ) case the determinant divisor is
nonzero, so the crossing point is always produced. -/
theorem div_ne_zero_of_orientation_ne (s1 s2 : Seg α)
    (h : orientation s1.1 s1.2 s2.1 ≠ orientation s1.1 s1.2 s2.2) :
    det (s1.1.1 - s1.2.1, s2.1.1 - s2.2.1) (s1.1.2 - s1.2.2, s2.1.2 - s2.2.2) ≠ 0 := by
  rw [det_dxdy_eq_orientVal_sub]
  intro hz
  exact h (orientation_eq_of_orientVal_eq (by linarith [sub_eq_zero.mp hz]))

/-- The fast routine succeeds exactly when the general case holds or some
collinear special case produces a candidate point. -/
theorem check_collision_fast_iff (s1 s2 : Seg α) :
    check_collision_fast s1 s2 = true ↔
      ((orientation s1.1 s1.2 s2.1 ≠ orientation s1.1 s1.2 s2.2 ∧
        orientation s2.1 s2.2 s1.1 ≠ orientation s2.1 s2.2 s1.2) ∨
       collinearPts s1.1 s1.2 s2.1 s2.2 ≠ []) := by
  simp only [check_collision_fast, collinearPts]
  split_ifs <;> simp_all

/-- The exact routine returns a nonempty list exactly when the general case
holds or some collinear special case produces a candidate point. -/
theorem collision_ne_nil_iff (s1 s2 : Seg α) :
    collision s1 s2 ≠ [] ↔
      ((orientation s1.1 s1.2 s2.1 ≠ orientation s1.1 s1.2 s2.2 ∧
        orientation s2.1 s2.2 s1.1 ≠ orientation s2.1 s2.2 s1.2) ∨
       collinearPts s1.1 s1.2 s2.1 s2.2 ≠ []) := by
  by_cases hgen : orientation s1.1 s1.2 s2.1 ≠ orientation s1.1 s1.2 s2.2 ∧
      orientation s2.1 s2.2 s1.1 ≠ orientation s2.1 s2.2 s1.2
  · have hdiv := div_ne_zero_of_orientation_ne s1 s2 hgen.1
    simp only [collision, intersectSegs, if_pos hgen]
    simp [hdiv, hgen]
  · by_cases hpts : collinearPts s1.1 s1.2 s2.1 s2.2 = []
    · simp only [collision, intersectSegs, if_neg hgen]
      simp [hpts, hgen]
    · simp only [collision, intersectSegs, if_neg hgen]
      simp [hpts, hgen]

/-- C4.  Claim: For every pair of line segments a and b, the exact
intersection routine and the fast boolean routine agree on the
intersect/no-intersect classification: the exact routine returns a non-empty
point list if and only if the fast routine returns true. -/
theorem C4_exact_fast_agree (s1 s2 : Seg α) :
    collision s1 s2 ≠ [] ↔ check_collision_fast s1 s2 = true :=
  (collision_ne_nil_iff s1 s2).trans (check_collision_fast_iff s1 s2).symm

/-! ### Merge-step properties (C8, C3) -/

/-- The boolean comparator agrees with the lexicographic order on keys. -/
theorem segLE_iff_keys (s t : Seg α) : segLE s t = true ↔ segKey s ≤ segKey t := by
  simp only [segLE, ptLTb, ptLEb, segKey, ptKey, Bool.or_eq_true, Bool.and_eq_true,
    decide_eq_true_eq, Prod.Lex.le_iff, Prod.Lex.lt_iff, toLex_inj]

/-- segLE is transitive. -/
theorem segLE_trans {s t u : Seg α} (h1 : segLE s t = true) (h2 : segLE t u = true) :
    segLE s u = true := by
  rw [segLE_iff_keys] at *
  exact le_trans h1 h2

/-- segLE is total. -/
theorem segLE_total (s t : Seg α) : (segLE s t || segLE t s) = true := by
  simp only [Bool.or_eq_true, segLE_iff_keys]
  exact le_total _ _

/-- On a duplicate-free list the Python deduplication is the identity. -/
theorem remove_duplicates_of_nodup {β : Type} [DecidableEq β] :
    ∀ (l : List β), l.Nodup → remove_duplicates l = l := by
  intro l
  induction l with
  | nil => intro _; simp [remove_duplicates]
  | cons a rest ih =>
    intro h
    have ha : a ∉ rest := (List.nodup_cons.mp h).1
    have hne : ∀ b ∈ rest, (b = a) = False := by
      intro b hb
      simp only [eq_iff_iff, iff_false]
      intro e
      exact ha (e ▸ hb)
    have htw : rest.takeWhile (fun b => decide (b = a)) = [] := by
      cases rest with
      | nil => rfl
      | cons b t => simp [List.takeWhile_cons, hne b (List.mem_cons_self b t)]
    have hdw : rest.dropWhile (fun b => decide (b = a)) = rest := by
      cases rest with
      | nil => rfl
      | cons b t => simp [List.dropWhile_cons, hne b (List.mem_cons_self b t)]
    rw [remove_duplicates, htw, hdw, ih (List.nodup_cons.mp h).2]
    simp

/-- The merging fold of the vertical merge turns a connected family into the
single spanning segment.  Coverage of an interval is stated pointwise. -/
theorem mergeVertFold_span (c hi : ℚ) :
    ∀ (rest : List (Seg ℚ)) (lo m : ℚ),
      lo ≤ m →
      (∀ s ∈ rest, s.1.1 = c ∧ s.2.1 = c ∧ s.1.2 ≤ s.2.2) →
      List.Pairwise (fun s t : Seg ℚ => s.1.2 ≤ t.1.2) rest →
      (∀ y : ℚ, (lo ≤ y ∧ y ≤ hi) ↔
        ((lo ≤ y ∧ y ≤ m) ∨ ∃ s ∈ rest, s.1.2 ≤ y ∧ y ≤ s.2.2)) →
      mergeVertFold ((c, lo), (c, m)) rest = [((c, lo), (c, hi))] := by
  intro rest
  induction rest with
  | nil =>
    intro lo m hlom _ _ hcov
    have hmhi : m ≤ hi := ((hcov m).mpr (Or.inl ⟨hlom, le_refl m⟩)).2
    have hhim : hi ≤ m := by
      have hlohi : lo ≤ hi := le_trans hlom hmhi
      rcases (hcov hi).mp ⟨hlohi, le_refl hi⟩ with ⟨_, h⟩ | ⟨s, hs, _⟩
      · exact h
      · exact absurd hs (List.not_mem_nil s)
    have : m = hi := le_antisymm hmhi hhim
    subst this
    rfl
  | cons nxt rest2 ih =>
    intro lo m hlom hvert hpw hcov
    obtain ⟨hx1, hx2, hord⟩ := hvert nxt (List.mem_cons_self nxt rest2)
    -- the next bottom cannot exceed the running top, else the strip between
    -- them would be uncovered
    have hble : nxt.1.2 ≤ m := by
      by_contra hgt
      rw [not_le] at hgt
      set y := (m + nxt.1.2) / 2 with hy
      have hym : m < y := by rw [hy]; linarith
      have hyb : y < nxt.1.2 := by rw [hy]; linarith
      have htophi : nxt.2.2 ≤ hi :=
        ((hcov nxt.2.2).mpr (Or.inr ⟨nxt, List.mem_cons_self nxt rest2,
          hord, le_refl _⟩)).2
      have hyIcc : lo ≤ y ∧ y ≤ hi :=
        ⟨le_of_lt (lt_of_le_of_lt hlom hym), by linarith⟩
      rcases (hcov y).mp hyIcc with ⟨_, h⟩ | ⟨s, hs, hsy, _⟩
      · exact absurd h (not_le.mpr hym)
      · rcases List.mem_cons.mp hs with rfl | hs2
        · exact absurd hsy (not_le.mpr hyb)
        · have := (List.pairwise_cons.mp hpw).1 s hs2
          exact absurd (le_trans this hsy) (not_le.mpr hyb)
    have hlob : lo ≤ nxt.1.2 :=
      ((hcov nxt.1.2).mpr (Or.inr ⟨nxt, List.mem_cons_self nxt rest2,
        le_refl _, hord⟩)).1
    rw [mergeVertFold]
    rw [if_pos ⟨hx1.symm, hble⟩]
    apply ih lo (max m nxt.2.2) (le_trans hlom (le_max_left _ _))
      (fun s hs => hvert s (List.mem_cons_of_mem nxt hs))
      (List.pairwise_cons.mp hpw).2
    -- coverage after absorbing nxt into the running segment
    intro y
    rw [hcov y]
    constructor
    · rintro (⟨h1, h2⟩ | ⟨s, hs, hsy⟩)
      · exact Or.inl ⟨h1, le_trans h2 (le_max_left _ _)⟩
      · rcases List.mem_cons.mp hs with rfl | hs2
        · exact Or.inl ⟨le_trans hlob hsy.1, le_trans hsy.2 (le_max_right _ _)⟩
        · exact Or.inr ⟨s, hs2, hsy⟩
    · rintro (⟨h1, h2⟩ | ⟨s, hs2, hsy⟩)
      · rcases le_total y m with hc | hc
        · exact Or.inl ⟨h1, hc⟩
        · rcases max_cases m nxt.2.2 with ⟨he, _⟩ | ⟨he, _⟩
          · exact Or.inl ⟨h1, he ▸ h2⟩
          · exact Or.inr ⟨nxt, List.mem_cons_self nxt rest2,
              le_trans hble hc, he ▸ h2⟩
      · exact Or.inr ⟨s, List.mem_cons_of_mem nxt hs2, hsy⟩

/-- C8 (amended).  Claim, as amended: for every duplicate-free family of
collinear, touching or overlapping vertical segments (given bottom endpoint
first) covering exactly the interval [lo, hi] on the line x = c, the
vertical merge outputs exactly one segment spanning their union, and it is
idempotent on that output; the sloped merge likewise returns a single
already-merged segment unchanged.  (The original claim also asserted that
the sloped merge spans the union of a merged run; that part is refuted by
C8_union_counterexample.) -/
theorem C8_merge_span_idempotent (l : List (Seg ℚ)) (c lo hi : ℚ)
    (hne : l ≠ [])
    (hvert : ∀ s ∈ l, s.1.1 = c ∧ s.2.1 = c)
    (hord : ∀ s ∈ l, s.1.2 ≤ s.2.2)
    (hnd : l.Nodup)
    (hcov : ∀ y : ℚ, (lo ≤ y ∧ y ≤ hi) ↔ ∃ s ∈ l, s.1.2 ≤ y ∧ y ≤ s.2.2) :
    merge_vertical_line_segments l = some [((c, lo), (c, hi))] ∧
    merge_vertical_line_segments [((c, lo), (c, hi))] =
      some [((c, lo), (c, hi))] ∧
    ∀ s : Seg ℚ, merge_sloped_line_segments [s] = [sortPts s] := by
  -- basic consequences of coverage
  have hlohi : lo ≤ hi := by
    obtain ⟨s0, hs0⟩ := List.exists_mem_of_ne_nil l hne
    have h := (hcov s0.1.2).mpr ⟨s0, hs0, le_refl _, hord s0 hs0⟩
    have h2 := (hcov s0.2.2).mpr ⟨s0, hs0, hord s0 hs0, le_refl _⟩
    exact le_trans h.1 h.2
  refine ⟨?_, ?_, ?_⟩
  · -- the merge of the full family
    have hmap : l.map sortPtsByY = l := by
      have h : ∀ s ∈ l, sortPtsByY s = s := by
        intro s hs
        simp [sortPtsByY, not_lt.mpr (hord s hs)]
      conv_rhs => rw [show l = l.map id from (List.map_id l).symm]
      exact List.map_congr_left h
    have hall : l.all (fun s => decide (s.1.1 = s.2.1)) = true := by
      rw [List.all_eq_true]
      intro s hs
      simp [(hvert s hs).1, (hvert s hs).2]
    rw [merge_vertical_line_segments, if_neg hne, if_pos hall, hmap]
    have hperm := List.mergeSort_perm l segLE
    have hnds : (l.mergeSort segLE).Nodup := hperm.nodup_iff.mpr hnd
    rw [remove_duplicates_of_nodup _ hnds]
    have hsorted := @List.sorted_mergeSort _ segLE
      (fun a b d hab hbd => segLE_trans hab hbd) segLE_total l
    -- the sorted list is nonempty
    have hlen : l.mergeSort segLE ≠ [] := by
      intro h
      exact hne (h ▸ hperm).symm.eq_nil
    obtain ⟨c0, rest, hc0⟩ := List.exists_cons_of_ne_nil hlen
    -- transfer element facts to the sorted list
    have hmem : ∀ s : Seg ℚ, s ∈ l.mergeSort segLE ↔ s ∈ l := fun s => hperm.mem_iff
    have hvert2 : ∀ s ∈ l.mergeSort segLE, s.1.1 = c ∧ s.2.1 = c ∧ s.1.2 ≤ s.2.2 :=
      fun s hs => ⟨(hvert s ((hmem s).mp hs)).1, (hvert s ((hmem s).mp hs)).2,
        hord s ((hmem s).mp hs)⟩
    have hbots : List.Pairwise (fun s t : Seg ℚ => s.1.2 ≤ t.1.2)
        (l.mergeSort segLE) := by
      apply List.Pairwise.imp_of_mem ?_ hsorted
      intro s t hs ht hle
      have hxs := hvert2 s hs
      have hxt := hvert2 t ht
      rw [segLE_iff_keys] at hle
      simp only [segKey, ptKey] at hle
      rcases (Prod.Lex.le_iff _ _).mp hle with hlt | ⟨heq, _⟩
      · rcases (Prod.Lex.lt_iff _ _).mp hlt with hlt1 | ⟨_, hlt2⟩
        · rw [hxs.1, hxt.1] at hlt1
          exact absurd hlt1 (lt_irrefl c)
        · exact le_of_lt hlt2
      · have he : s.1 = t.1 := toLex.injective heq
        rw [he]
    rw [hc0] at hbots hvert2 hmem
    have hpcons := List.pairwise_cons.mp hbots
    -- the head starts at lo
    have hc0mem : c0 ∈ l := (hmem c0).mp (List.mem_cons_self c0 rest)
    have hc0lo : c0.1.2 = lo := by
      have hge : lo ≤ c0.1.2 :=
        ((hcov c0.1.2).mpr ⟨c0, hc0mem, le_refl _, hord c0 hc0mem⟩).1
      obtain ⟨smin, hsminmem, hsmin1, _⟩ := (hcov lo).mp ⟨le_refl lo, hlohi⟩
      have hminge : lo ≤ smin.1.2 :=
        ((hcov smin.1.2).mpr ⟨smin, hsminmem, le_refl _, hord smin hsminmem⟩).1
      have hminlo : smin.1.2 = lo := le_antisymm hsmin1 hminge
      have hsmins : smin ∈ c0 :: rest := (hmem smin).mpr hsminmem
      rcases List.mem_cons.mp hsmins with rfl | hsr
      · rw [hminlo]
      · have hle := hpcons.1 smin hsr
        exact le_antisymm (hminlo ▸ hle) hge
    -- rewrite the head in the canonical shape and run the fold
    have hc0v := hvert2 c0 (List.mem_cons_self c0 rest)
    have hc0eq : c0 = ((c, lo), (c, c0.2.2)) := by
      obtain ⟨⟨a, b⟩, ⟨d, e⟩⟩ := c0
      simp only at hc0v hc0lo
      simp [hc0v.1, hc0v.2.1, hc0lo]
    rw [hc0]
    have hfold : mergeVertFold ((c, lo), (c, c0.2.2)) rest = [((c, lo), (c, hi))] := by
      apply mergeVertFold_span c hi rest lo c0.2.2 (hc0lo ▸ hc0v.2.2)
        (fun s hs => hvert2 s (List.mem_cons_of_mem c0 hs)) hpcons.2
      -- coverage restated relative to head plus tail
      intro y
      rw [hcov y]
      constructor
      · rintro ⟨s, hs, hsy⟩
        have hss : s ∈ c0 :: rest := (hmem s).mpr hs
        rcases List.mem_cons.mp hss with rfl | hsr
        · exact Or.inl ⟨hc0lo ▸ hsy.1, hsy.2⟩
        · exact Or.inr ⟨s, hsr, hsy⟩
      · rintro (⟨h1, h2⟩ | ⟨s, hs, hsy⟩)
        · exact ⟨c0, hc0mem, hc0lo ▸ h1, h2⟩
        · exact ⟨s, (hmem s).mp (List.mem_cons_of_mem c0 hs), hsy⟩
    show some (mergeVertFold c0 rest) = some [((c, lo), (c, hi))]
    rw [hc0eq]
    exact congrArg some hfold
  · -- idempotence of the vertical merge on the spanning segment
    have h1 : (((c, lo), (c, hi)) : Seg ℚ) :: [] ≠ [] := by simp
    simp [merge_vertical_line_segments, sortPtsByY, not_lt.mpr hlohi,
      List.mergeSort, remove_duplicates, mergeVertFold]
  · -- the sloped merge returns a single segment unchanged
    intro s
    simp [merge_sloped_line_segments, List.mergeSort, remove_duplicates,
      List.enum, mergeOuter, mergeInner]

/-! ### Structural facts about the merges (towards C3) -/

/-- The inner merge loop never changes the left endpoint of the running
segment. -/
theorem mergeInner_fst (segment1 : Seg α) :
    ∀ (js : List (ℕ × Seg α)) (cur : Seg α) (merged : List ℕ),
      (mergeInner segment1 cur js merged).1.1 = cur.1 := by
  intro js
  induction js with
  | nil => intro cur merged; rfl
  | cons hd tl ih =>
    intro cur merged
    obtain ⟨j, segment2⟩ := hd
    rw [mergeInner]
    split_ifs with h1 h2
    · rfl
    · exact ih (cur.1, listMax segment1.2 segment2.2) (merged ++ [j])
    · exact ih cur merged

/-- Every output of the outer merge loop starts at the left endpoint of one
of the pending segments. -/
theorem mergeOuter_fst :
    ∀ (pending : List (ℕ × Seg α)) (merged : List ℕ) (out : Seg α),
      out ∈ mergeOuter pending merged → ∃ p ∈ pending, out.1 = p.2.1 := by
  intro pending
  induction pending with
  | nil => intro merged out h; exact absurd h (List.not_mem_nil out)
  | cons hd tl ih =>
    intro merged out h
    obtain ⟨i, segment1⟩ := hd
    rw [mergeOuter] at h
    split_ifs at h with hmem
    · obtain ⟨p, hp, hp2⟩ := ih merged out h
      exact ⟨p, List.mem_cons_of_mem _ hp, hp2⟩
    · rcases List.mem_cons.mp h with rfl | h2
      · refine ⟨(i, segment1), List.mem_cons_self _ _, ?_⟩
        exact mergeInner_fst segment1 tl segment1 merged
      · obtain ⟨p, hp, hp2⟩ := ih _ out h2
        exact ⟨p, List.mem_cons_of_mem _ hp, hp2⟩

/-- A segment with the same slope and intercept as a non-vertical horizontal
segment is horizontal at the same height. -/
theorem siEq_horiz {segment1 s2 : Seg α}
    (hnv : segment1.1.1 ≠ segment1.2.1) (hh : segment1.1.2 = segment1.2.2)
    (heq : siEq (slopeIntercept segment1) (slopeIntercept s2) = true) :
    s2.1.2 = segment1.1.2 ∧ s2.2.2 = segment1.1.2 := by
  have hdx : segment1.2.1 - segment1.1.1 ≠ 0 := sub_ne_zero.mpr (Ne.symm hnv)
  have hs1 : slopeIntercept segment1 =
      (FloatVal.fin 0, FloatVal.fin segment1.1.2) := by
    rw [slopeIntercept, if_neg hdx]
    rw [← hh]
    simp
  rw [hs1] at heq
  by_cases hdx2 : s2.2.1 - s2.1.1 = 0
  · rw [slopeIntercept, if_pos hdx2] at heq
    simp [siEq, floatEq] at heq
  · rw [slopeIntercept, if_neg hdx2] at heq
    simp only [siEq, floatEq, Bool.and_eq_true, decide_eq_true_eq] at heq
    obtain ⟨hslope, hint⟩ := heq
    have hy : s2.2.2 = s2.1.2 := by
      have := div_eq_zero_iff.mp hslope.symm
      rcases this with h | h
      · linarith [sub_eq_zero.mp h]
      · exact absurd h hdx2
    have h0 : (s2.2.2 - s2.1.2) / (s2.2.1 - s2.1.1) = 0 := hslope.symm
    rw [h0] at hint
    constructor
    · rw [hint]; ring
    · rw [hy, hint]; ring

/-- If the first segment of a run is horizontal and non-vertical, the inner
merge loop keeps both endpoints of the running segment at its height. -/
theorem mergeInner_horiz (segment1 : Seg α)
    (hnv : segment1.1.1 ≠ segment1.2.1) (hh : segment1.1.2 = segment1.2.2) :
    ∀ (js : List (ℕ × Seg α)) (cur : Seg α) (merged : List ℕ),
      cur.1.2 = segment1.1.2 → cur.2.2 = segment1.1.2 →
      (mergeInner segment1 cur js merged).1.1.2 = segment1.1.2 ∧
      (mergeInner segment1 cur js merged).1.2.2 = segment1.1.2 := by
  intro js
  induction js with
  | nil => intro cur merged h1 h2; exact ⟨h1, h2⟩
  | cons hd tl ih =>
    intro cur merged h1 h2
    obtain ⟨j, segment2⟩ := hd
    rw [mergeInner]
    split_ifs with hb hsi
    · exact ⟨h1, h2⟩
    · apply ih
      · exact h1
      · have hs2 := siEq_horiz hnv hh hsi
        rw [listMax]
        split_ifs
        · exact hs2.2
        · exact hh.symm
    · exact ih cur merged h1 h2

/-- On an all-horizontal, non-vertical pending list, every output of the
outer merge loop is horizontal. -/
theorem mergeOuter_horiz :
    ∀ (pending : List (ℕ × Seg α)) (merged : List ℕ),
      (∀ p ∈ pending, p.2.1.1 ≠ p.2.2.1 ∧ p.2.1.2 = p.2.2.2) →
      ∀ out ∈ mergeOuter pending merged, out.1.2 = out.2.2 := by
  intro pending
  induction pending with
  | nil => intro merged _ out h; exact absurd h (List.not_mem_nil out)
  | cons hd tl ih =>
    intro merged hall out h
    obtain ⟨i, segment1⟩ := hd
    have h1 := hall (i, segment1) (List.mem_cons_self _ _)
    rw [mergeOuter] at h
    split_ifs at h with hmem
    · exact ih merged (fun p hp => hall p (List.mem_cons_of_mem _ hp)) out h
    · rcases List.mem_cons.mp h with rfl | h2
      · have hfst := mergeInner_fst segment1 tl segment1 merged
        have := mergeInner_horiz segment1 h1.1 h1.2 tl segment1 merged rfl h1.2.symm
        rw [hfst] at this ⊢
        rw [this.1.symm]
        exact this.2.symm ▸ this.1 ▸ rfl
      · exact ih _ (fun p hp => hall p (List.mem_cons_of_mem _ hp)) out h2

/-- Every output of the vertical merging fold starts at the left endpoint of
the running segment or of a later segment. -/
theorem mergeVertFold_fst :
    ∀ (rest : List (Seg α)) (cur : Seg α) (out : Seg α),
      out ∈ mergeVertFold cur rest →
      out.1 = cur.1 ∨ ∃ t ∈ rest, out.1 = t.1 := by
  intro rest
  induction rest with
  | nil =>
    intro cur out h
    rw [mergeVertFold] at h
    rcases List.mem_cons.mp h with rfl | h2
    · exact Or.inl rfl
    · exact absurd h2 (List.not_mem_nil out)
  | cons nxt tl ih =>
    intro cur out h
    rw [mergeVertFold] at h
    split_ifs at h with hm
    · rcases ih _ out h with h1 | ⟨t, ht, h2⟩
      · exact Or.inl h1
      · exact Or.inr ⟨t, List.mem_cons_of_mem _ ht, h2⟩
    · rcases List.mem_cons.mp h with rfl | h2
      · exact Or.inl rfl
      · rcases ih _ out h2 with h1 | ⟨t, ht, h3⟩
        · exact Or.inr ⟨nxt, List.mem_cons_self _ _, h1⟩
        · exact Or.inr ⟨t, List.mem_cons_of_mem _ ht, h3⟩

/-- On vertical inputs the vertical merging fold outputs vertical segments. -/
theorem mergeVertFold_vert :
    ∀ (rest : List (Seg α)) (cur : Seg α),
      cur.1.1 = cur.2.1 → (∀ t ∈ rest, t.1.1 = t.2.1) →
      ∀ out ∈ mergeVertFold cur rest, out.1.1 = out.2.1 := by
  intro rest
  induction rest with
  | nil =>
    intro cur hc _ out h
    rw [mergeVertFold] at h
    rcases List.mem_cons.mp h with rfl | h2
    · exact hc
    · exact absurd h2 (List.not_mem_nil out)
  | cons nxt tl ih =>
    intro cur hc hall out h
    rw [mergeVertFold] at h
    split_ifs at h with hm
    · exact ih _ rfl (fun t ht => hall t (List.mem_cons_of_mem _ ht)) out h
    · rcases List.mem_cons.mp h with rfl | h2
      · exact hc
      · exact ih _ (hall nxt (List.mem_cons_self _ _))
          (fun t ht => hall t (List.mem_cons_of_mem _ ht)) out h2

/-- Deduplication only returns elements of its input. -/
theorem remove_duplicates_subset {β : Type} [DecidableEq β] :
    ∀ (l : List β) (s : β), s ∈ remove_duplicates l → s ∈ l := by
  have main : ∀ (n : ℕ) (l : List β), l.length ≤ n →
      ∀ s, s ∈ remove_duplicates l → s ∈ l := by
    intro n
    induction n with
    | zero =>
      intro l hl s h
      rw [List.eq_nil_of_length_eq_zero (Nat.le_zero.mp hl)] at h ⊢
      rw [remove_duplicates] at h
      exact h
    | succ n ih =>
      intro l hl s h
      cases l with
      | nil => rw [remove_duplicates] at h; exact absurd h (List.not_mem_nil s)
      | cons a rest =>
        rw [remove_duplicates] at h
        rcases List.mem_append.mp h with h1 | h2
        · rcases Decidable.em (rest.takeWhile (fun b => decide (b = a)) = [])
            with he | he
          · rw [if_pos he] at h1
            rcases List.mem_cons.mp h1 with h3 | h3
            · exact h3 ▸ List.mem_cons_self a rest
            · exact absurd h3 (List.not_mem_nil s)
          · rw [if_neg he] at h1
            exact absurd h1 (List.not_mem_nil s)
        · have hlen : (rest.dropWhile (fun b => decide (b = a))).length ≤ n := by
            have h1 := (@List.dropWhile_sublist
              _ rest (fun b => decide (b = a))).length_le
            have h2 : rest.length ≤ n := by
              simpa using Nat.le_of_succ_le_succ (by simpa using hl)
            exact le_trans h1 h2
          exact List.mem_cons_of_mem a
            ((List.dropWhile_sublist _).mem (ih _ hlen s h2))
  exact fun l => main l.length l le_rfl

/-- The survivors of the deduplication step of optimize_walls are exactly
the normalized segments of multiplicity one. -/
theorem fewer_segments_mem (ls : List (Seg α)) (s : Seg α) :
    s ∈ fewer_segments ls ↔ segCount s (ls.map sortPts) = 1 := by
  have hperm := List.mergeSort_perm (ls.map sortPts) segLE
  have hcnt : segCount s (normalized_sorted ls) = segCount s (ls.map sortPts) :=
    hperm.countP_eq _
  constructor
  · intro h
    have hf := List.mem_filter.mp h
    rw [← hcnt]
    exact of_decide_eq_true hf.2
  · intro h
    apply List.mem_filter.mpr
    refine ⟨?_, decide_eq_true (by rw [hcnt]; exact h)⟩
    apply hperm.mem_iff.mpr
    have hpos : 0 < (ls.map sortPts).countP (fun t => decide (t = s)) := by
      rw [show (ls.map sortPts).countP (fun t => decide (t = s)) =
        segCount s (ls.map sortPts) from rfl, h]
      norm_num
    obtain ⟨t, ht, hts⟩ := List.countP_pos_iff.mp hpos
    exact (of_decide_eq_true hts) ▸ ht

/-- Characterization of the boolean point comparison. -/
theorem ptLTb_eq_true_iff (p q : Pt α) :
    ptLTb p q = true ↔ (p.1 < q.1 ∨ (p.1 = q.1 ∧ p.2 < q.2)) := by
  simp [ptLTb]

/-- Normalization keeps a segment whose endpoints are already ordered. -/
theorem sortPts_eq_self {s : Seg α} (h : ¬ (s.2.1 < s.1.1 ∨ (s.2.1 = s.1.1 ∧ s.2.2 < s.1.2))) :
    sortPts s = s := by
  rw [sortPts, if_neg]
  rw [ptLTb_eq_true_iff]
  exact h

/-- Normalization swaps a segment whose endpoints are out of order. -/
theorem sortPts_swap {s : Seg α} (h : s.2.1 < s.1.1 ∨ (s.2.1 = s.1.1 ∧ s.2.2 < s.1.2)) :
    sortPts s = (s.2, s.1) := by
  rw [sortPts, if_pos]
  rw [ptLTb_eq_true_iff]
  exact h

/-- Normalization either keeps or swaps the endpoints. -/
theorem sortPts_cases (s : Seg α) : sortPts s = s ∨ sortPts s = (s.2, s.1) := by
  rw [sortPts]
  split_ifs <;> simp

/-- Normalization is idempotent. -/
theorem sortPts_idem (s : Seg α) : sortPts (sortPts s) = sortPts s := by
  by_cases h : ptLTb s.2 s.1 = true
  · have hin : sortPts s = (s.2, s.1) := by rw [sortPts, if_pos h]
    rw [hin]
    apply sortPts_eq_self
    rw [ptLTb_eq_true_iff] at h
    rintro (h2 | ⟨h2a, h2b⟩) <;> rcases h with h1 | ⟨h1a, h1b⟩
    · exact absurd (lt_trans h1 h2) (lt_irrefl _)
    · exact absurd (h1a ▸ h2) (lt_irrefl _)
    · exact absurd (h2a ▸ h1) (lt_irrefl _)
    · exact absurd (lt_trans h1b h2b) (lt_irrefl _)
  · have hin : sortPts s = s := by rw [sortPts, if_neg h]
    rw [hin, hin]

/-- Normalization keeps an ordered pair of endpoints, componentwise form. -/
theorem sortPts_keep (p q : Pt α) (h1 : p.1 ≤ q.1) (h2 : q.1 = p.1 → p.2 ≤ q.2) :
    sortPts (p, q) = (p, q) := by
  apply sortPts_eq_self
  rintro (h | ⟨ha, hb⟩)
  · exact absurd h (not_lt.mpr h1)
  · exact absurd hb (not_lt.mpr (h2 ha))

/-- Normalization flips an out-of-order pair of endpoints, componentwise
form. -/
theorem sortPts_flip (p q : Pt α) (h : q.1 < p.1 ∨ (q.1 = p.1 ∧ q.2 < p.2)) :
    sortPts (p, q) = (q, p) :=
  sortPts_swap h

/-- The four normalized unit-square edges of an occupied cell, after scaling
by the wall segment length. -/
theorem cellSquare_norm (a b : ℕ) :
    ((cellSquare a b).map scaleSeg).map sortPts =
      [(((a : ℚ) * 12, (b : ℚ) * 12), (((a : ℚ) + 1) * 12, (b : ℚ) * 12)),
       ((((a : ℚ) + 1) * 12, (b : ℚ) * 12), (((a : ℚ) + 1) * 12, ((b : ℚ) + 1) * 12)),
       (((a : ℚ) * 12, ((b : ℚ) + 1) * 12), (((a : ℚ) + 1) * 12, ((b : ℚ) + 1) * 12)),
       (((a : ℚ) * 12, (b : ℚ) * 12), ((a : ℚ) * 12, ((b : ℚ) + 1) * 12))] := by
  have e1 : sortPts (((a : ℚ) * 12, (b : ℚ) * 12), (((a : ℚ) + 1) * 12, (b : ℚ) * 12)) =
      (((a : ℚ) * 12, (b : ℚ) * 12), (((a : ℚ) + 1) * 12, (b : ℚ) * 12)) :=
    sortPts_keep _ _ (by simp only; linarith) (fun _ => le_refl _)
  have e2 : sortPts ((((a : ℚ) + 1) * 12, (b : ℚ) * 12),
      (((a : ℚ) + 1) * 12, ((b : ℚ) + 1) * 12)) =
      ((((a : ℚ) + 1) * 12, (b : ℚ) * 12), (((a : ℚ) + 1) * 12, ((b : ℚ) + 1) * 12)) :=
    sortPts_keep _ _ (le_refl _) (fun _ => by simp only; linarith)
  have e3 : sortPts ((((a : ℚ) + 1) * 12, ((b : ℚ) + 1) * 12),
      ((a : ℚ) * 12, ((b : ℚ) + 1) * 12)) =
      (((a : ℚ) * 12, ((b : ℚ) + 1) * 12), (((a : ℚ) + 1) * 12, ((b : ℚ) + 1) * 12)) :=
    sortPts_flip _ _ (Or.inl (by simp only; linarith))
  have e4 : sortPts (((a : ℚ) * 12, ((b : ℚ) + 1) * 12), ((a : ℚ) * 12, (b : ℚ) * 12)) =
      (((a : ℚ) * 12, (b : ℚ) * 12), ((a : ℚ) * 12, ((b : ℚ) + 1) * 12)) :=
    sortPts_flip _ _ (Or.inr ⟨rfl, by simp only; linarith⟩)
  simp only [cellSquare, List.map_cons, List.map_nil, scaleSeg, scalePt]
  rw [e1, e2, e3, e4]

/-- The four normalized boundary segments, after scaling. -/
theorem boundarySquare_norm (dx dy : ℕ) (hdx : 0 < dx) (hdy : 0 < dy) :
    ((boundarySquare dx dy).map scaleSeg).map sortPts =
      [((0, 0), ((dx : ℚ) * 12, 0)),
       (((dx : ℚ) * 12, 0), ((dx : ℚ) * 12, (dy : ℚ) * 12)),
       ((0, (dy : ℚ) * 12), ((dx : ℚ) * 12, (dy : ℚ) * 12)),
       ((0, 0), (0, (dy : ℚ) * 12))] := by
  have hdxq : (0 : ℚ) < (dx : ℚ) := by exact_mod_cast hdx
  have hdyq : (0 : ℚ) < (dy : ℚ) := by exact_mod_cast hdy
  have e1 : sortPts (((0 : ℚ) * 12, (0 : ℚ) * 12), ((dx : ℚ) * 12, (0 : ℚ) * 12)) =
      (((0 : ℚ) * 12, (0 : ℚ) * 12), ((dx : ℚ) * 12, (0 : ℚ) * 12)) :=
    sortPts_keep _ _ (by simp only; nlinarith) (fun _ => le_refl _)
  have e2 : sortPts (((dx : ℚ) * 12, (0 : ℚ) * 12), ((dx : ℚ) * 12, (dy : ℚ) * 12)) =
      (((dx : ℚ) * 12, (0 : ℚ) * 12), ((dx : ℚ) * 12, (dy : ℚ) * 12)) :=
    sortPts_keep _ _ (le_refl _) (fun _ => by simp only; nlinarith)
  have e3 : sortPts (((dx : ℚ) * 12, (dy : ℚ) * 12), ((0 : ℚ) * 12, (dy : ℚ) * 12)) =
      (((0 : ℚ) * 12, (dy : ℚ) * 12), ((dx : ℚ) * 12, (dy : ℚ) * 12)) :=
    sortPts_flip _ _ (Or.inl (by simp only; nlinarith))
  have e4 : sortPts (((0 : ℚ) * 12, (dy : ℚ) * 12), ((0 : ℚ) * 12, (0 : ℚ) * 12)) =
      (((0 : ℚ) * 12, (0 : ℚ) * 12), ((0 : ℚ) * 12, (dy : ℚ) * 12)) :=
    sortPts_flip _ _ (Or.inr ⟨rfl, by simp only; nlinarith⟩)
  simp only [boundarySquare, List.map_cons, List.map_nil, scaleSeg, scalePt]
  rw [e1, e2, e3, e4]
  norm_num

/-- Every normalized maze wall segment is one of the four boundary segments
or a unit edge of some occupied cell. -/
theorem maze_walls_shapes (grid : List (List ℤ)) (t : Seg ℚ)
    (hdx : 0 < gridDimX grid) (hdy : 0 < gridDimY grid)
    (ht : t ∈ (maze_walls grid).map sortPts) :
    t = ((0, 0), ((gridDimX grid : ℚ) * 12, 0)) ∨
    t = (((gridDimX grid : ℚ) * 12, 0),
         ((gridDimX grid : ℚ) * 12, (gridDimY grid : ℚ) * 12)) ∨
    t = ((0, (gridDimY grid : ℚ) * 12),
         ((gridDimX grid : ℚ) * 12, (gridDimY grid : ℚ) * 12)) ∨
    t = ((0, 0), (0, (gridDimY grid : ℚ) * 12)) ∨
    ∃ a b : ℕ, a < gridDimX grid ∧ b < gridDimY grid ∧
      cellIsWall grid a b = true ∧
      (t = (((a : ℚ) * 12, (b : ℚ) * 12), (((a : ℚ) + 1) * 12, (b : ℚ) * 12)) ∨
       t = ((((a : ℚ) + 1) * 12, (b : ℚ) * 12),
            (((a : ℚ) + 1) * 12, ((b : ℚ) + 1) * 12)) ∨
       t = (((a : ℚ) * 12, ((b : ℚ) + 1) * 12),
            (((a : ℚ) + 1) * 12, ((b : ℚ) + 1) * 12)) ∨
       t = (((a : ℚ) * 12, (b : ℚ) * 12), ((a : ℚ) * 12, ((b : ℚ) + 1) * 12))) := by
  obtain ⟨u, hu, hut⟩ := List.mem_map.mp ht
  obtain ⟨blk, hblk, hublk⟩ := List.mem_flatten.mp (by
    rw [maze_walls] at hu; exact hu)
  obtain ⟨sq, hsq, hsqblk⟩ := List.mem_map.mp hblk
  have htmem : t ∈ ((sq.map scaleSeg).map sortPts) := by
    rw [← hut]
    apply List.mem_map_of_mem sortPts
    rw [hsqblk]
    exact hublk
  rw [wall_squares] at hsq
  rcases List.mem_cons.mp hsq with rfl | hsq2
  · rw [boundarySquare_norm _ _ hdx hdy] at htmem
    simp only [List.mem_cons, List.not_mem_nil, or_false] at htmem
    tauto
  · obtain ⟨a, ha, hfa⟩ := List.mem_flatMap.mp hsq2
    obtain ⟨b, hb, hfb⟩ := List.mem_filterMap.mp hfa
    have hwall : cellIsWall grid a b = true := by
      by_contra hc
      rw [if_neg hc] at hfb
      exact Option.noConfusion hfb
    rw [if_pos hwall] at hfb
    obtain rfl : cellSquare a b = sq := Option.some.inj hfb
    rw [cellSquare_norm] at htmem
    simp only [List.mem_cons, List.not_mem_nil, or_false] at htmem
    refine Or.inr (Or.inr (Or.inr (Or.inr ⟨a, b, List.mem_range.mp ha,
      List.mem_range.mp hb, hwall, ?_⟩)))
    tauto

/-- A segment found in two blocks of a split of the wall-square list has
multiplicity at least two among the normalized walls. -/
theorem two_le_segCount_flatten (v : Seg ℚ) (grid : List (List ℤ))
    (W1 W2 : List (List (Seg ℚ))) (hW : wall_squares grid = W1 ++ W2)
    (h1 : ∃ sq ∈ W1, v ∈ (sq.map scaleSeg).map sortPts)
    (h2 : ∃ sq ∈ W2, v ∈ (sq.map scaleSeg).map sortPts) :
    2 ≤ segCount v ((maze_walls grid).map sortPts) := by
  have hT : (maze_walls grid).map sortPts =
      ((W1 ++ W2).map (fun sq => (sq.map scaleSeg).map sortPts)).flatten := by
    rw [maze_walls, ← hW, List.map_flatten, List.map_map]
    rfl
  rw [hT, List.map_append, List.flatten_append, segCount, List.countP_append]
  obtain ⟨sq1, hsq1, hv1⟩ := h1
  obtain ⟨sq2, hsq2, hv2⟩ := h2
  have c1 : 0 < (List.map (fun sq => (sq.map scaleSeg).map sortPts) W1).flatten.countP
      (fun t => decide (t = v)) := by
    apply List.countP_pos_iff.mpr
    exact ⟨v, List.mem_flatten.mpr ⟨_, List.mem_map_of_mem _ hsq1, hv1⟩, by simp⟩
  have c2 : 0 < (List.map (fun sq => (sq.map scaleSeg).map sortPts) W2).flatten.countP
      (fun t => decide (t = v)) := by
    apply List.countP_pos_iff.mpr
    exact ⟨v, List.mem_flatten.mpr ⟨_, List.mem_map_of_mem _ hsq2, hv2⟩, by simp⟩
  omega

/-- The shared vertical edge of two horizontally adjacent occupied cells has
multiplicity at least two among the normalized walls. -/
theorem shared_vertical_edge_two (grid : List (List ℤ)) (cx cy : ℕ)
    (hx : cx + 1 < gridDimX grid) (hy : cy < gridDimY grid)
    (h1 : cellIsWall grid cx cy = true) (h2 : cellIsWall grid (cx + 1) cy = true) :
    2 ≤ segCount ((((cx : ℚ) + 1) * 12, (cy : ℚ) * 12),
                  (((cx : ℚ) + 1) * 12, ((cy : ℚ) + 1) * 12))
        ((maze_walls grid).map sortPts) := by
  have hsplit : List.range (gridDimX grid) =
      List.range (cx + 1) ++
      List.map (fun x => (cx + 1) + x) (List.range (gridDimX grid - (cx + 1))) := by
    rw [← List.range_add]
    congr 1
    omega
  apply two_le_segCount_flatten _ grid
    (boundarySquare (gridDimX grid) (gridDimY grid) ::
      (List.range (cx + 1)).flatMap (fun a =>
        (List.range (gridDimY grid)).filterMap (fun b =>
          if cellIsWall grid a b then some (cellSquare a b) else none)))
    ((List.map (fun x => (cx + 1) + x) (List.range (gridDimX grid - (cx + 1)))).flatMap
      (fun a => (List.range (gridDimY grid)).filterMap (fun b =>
        if cellIsWall grid a b then some (cellSquare a b) else none)))
  · rw [wall_squares, hsplit, List.flatMap_append]
    rfl
  · refine ⟨cellSquare cx cy, List.mem_cons_of_mem _ ?_, ?_⟩
    · exact List.mem_flatMap.mpr ⟨cx, List.mem_range.mpr (by omega),
        List.mem_filterMap.mpr ⟨cy, List.mem_range.mpr hy, by rw [if_pos h1]⟩⟩
    · rw [cellSquare_norm]
      simp
  · refine ⟨cellSquare (cx + 1) cy, ?_, ?_⟩
    · exact List.mem_flatMap.mpr ⟨cx + 1,
        List.mem_map.mpr ⟨0, List.mem_range.mpr (by omega), by omega⟩,
        List.mem_filterMap.mpr ⟨cy, List.mem_range.mpr hy, by rw [if_pos h2]⟩⟩
    · rw [cellSquare_norm]
      push_cast
      simp

/-- The shared horizontal edge of two vertically adjacent occupied cells has
multiplicity at least two among the normalized walls. -/
theorem shared_horizontal_edge_two (grid : List (List ℤ)) (cx cy : ℕ)
    (hx : cx < gridDimX grid) (hy : cy + 1 < gridDimY grid)
    (h1 : cellIsWall grid cx cy = true) (h2 : cellIsWall grid cx (cy + 1) = true) :
    2 ≤ segCount (((cx : ℚ) * 12, ((cy : ℚ) + 1) * 12),
                  (((cx : ℚ) + 1) * 12, ((cy : ℚ) + 1) * 12))
        ((maze_walls grid).map sortPts) := by
  have hsplitx : List.range (gridDimX grid) =
      (List.range cx ++ [cx]) ++
      List.map (fun x => (cx + 1) + x) (List.range (gridDimX grid - (cx + 1))) := by
    rw [← List.range_succ, ← List.range_add]
    congr 1
    omega
  have hsplity : List.range (gridDimY grid) =
      List.range (cy + 1) ++
      List.map (fun y => (cy + 1) + y) (List.range (gridDimY grid - (cy + 1))) := by
    rw [← List.range_add]
    congr 1
    omega
  apply two_le_segCount_flatten _ grid
    (boundarySquare (gridDimX grid) (gridDimY grid) ::
      ((List.range cx).flatMap (fun a =>
        (List.range (gridDimY grid)).filterMap (fun b =>
          if cellIsWall grid a b then some (cellSquare a b) else none)) ++
       (List.range (cy + 1)).filterMap (fun b =>
          if cellIsWall grid cx b then some (cellSquare cx b) else none)))
    (((List.map (fun y => (cy + 1) + y) (List.range (gridDimY grid - (cy + 1)))).filterMap
        (fun b => if cellIsWall grid cx b then some (cellSquare cx b) else none)) ++
      (List.map (fun x => (cx + 1) + x) (List.range (gridDimX grid - (cx + 1)))).flatMap
        (fun a => (List.range (gridDimY grid)).filterMap (fun b =>
          if cellIsWall grid a b then some (cellSquare a b) else none)))
  · rw [wall_squares, hsplitx, List.flatMap_append, List.flatMap_append]
    simp only [List.flatMap_cons, List.flatMap_nil, List.append_nil, List.cons_append]
    rw [hsplity, List.filterMap_append]
    simp [List.append_assoc]
  · refine ⟨cellSquare cx cy, List.mem_cons_of_mem _ (List.mem_append_right _ ?_), ?_⟩
    · exact List.mem_filterMap.mpr ⟨cy, List.mem_range.mpr (by omega), by rw [if_pos h1]⟩
    · rw [cellSquare_norm]
      simp
  · refine ⟨cellSquare cx (cy + 1), List.mem_append_left _ ?_, ?_⟩
    · exact List.mem_filterMap.mpr ⟨cy + 1,
        List.mem_map.mpr ⟨0, List.mem_range.mpr (by omega), by omega⟩,
        by rw [if_pos h2]⟩
    · rw [cellSquare_norm]
      push_cast
      simp

/-- The y-sorting of endpoints either keeps or swaps them. -/
theorem sortPtsByY_cases (s : Seg α) :
    sortPtsByY s = s ∨ sortPtsByY s = (s.2, s.1) := by
  rw [sortPtsByY]
  split_ifs <;> simp

/-- Unfolding optimize_walls on a successful run. -/
theorem optimize_walls_eq (ls : List (Seg ℚ)) (rwalls : List (Seg ℚ))
    (h : optimize_walls ls = some rwalls) :
    (ls = [] ∧ rwalls = []) ∨
    ∃ mv, merge_vertical_line_segments
        ((fewer_segments ls).filter (fun s => is_vertical s)) = some mv ∧
      rwalls = merge_sloped_line_segments
        ((fewer_segments ls).filter (fun s => !(is_vertical s))) ++ mv := by
  by_cases hnil : ls = []
  · rw [optimize_walls, if_pos hnil] at h
    exact Or.inl ⟨hnil, (Option.some.inj h).symm⟩
  · rw [optimize_walls, if_neg hnil] at h
    cases heq : merge_vertical_line_segments
        ((fewer_segments ls).filter (fun s => is_vertical s)) with
    | none => rw [heq] at h; exact Option.noConfusion h
    | some mv =>
      rw [heq] at h
      exact Or.inr ⟨mv, rfl, (Option.some.inj h).symm⟩

/-- Survivors of the deduplication step are normalized wall segments. -/
theorem fewer_subset_norm (ls : List (Seg ℚ)) (t : Seg ℚ)
    (h : t ∈ fewer_segments ls) : t ∈ ls.map sortPts :=
  (List.mergeSort_perm (ls.map sortPts) segLE).mem_iff.mp (List.mem_filter.mp h).1

/-- Every member of a successful vertical merge starts at the first point of
some input segment, and is vertical whenever all inputs are. -/
theorem merge_vertical_mem (vert mv : List (Seg ℚ))
    (h : merge_vertical_line_segments vert = some mv)
    (out : Seg ℚ) (hout : out ∈ mv) :
    (∃ u ∈ vert, out.1 = (sortPtsByY u).1) ∧
    ((∀ s ∈ vert, s.1.1 = s.2.1) → out.1.1 = out.2.1) := by
  by_cases hnil : vert = []
  · subst hnil
    rw [merge_vertical_line_segments] at h
    simp only [if_pos rfl] at h
    rw [← Option.some.inj h] at hout
    exact absurd hout (List.not_mem_nil out)
  · rw [merge_vertical_line_segments, if_neg hnil] at h
    by_cases hall : vert.all (fun s => decide (s.1.1 = s.2.1)) = true
    · rw [if_pos hall] at h
      cases hnd : remove_duplicates ((vert.map sortPtsByY).mergeSort segLE) with
      | nil => rw [hnd] at h; exact Option.noConfusion h
      | cons c rest =>
        rw [hnd] at h
        have hmv : mergeVertFold c rest = mv := Option.some.inj h
        rw [← hmv] at hout
        have hmemnd : ∀ x : Seg ℚ, x ∈ c :: rest → ∃ u ∈ vert, x = sortPtsByY u := by
          intro x hx
          have hx2 : x ∈ remove_duplicates ((vert.map sortPtsByY).mergeSort segLE) :=
            hnd ▸ hx
          have hx3 := remove_duplicates_subset _ x hx2
          have hx4 := (List.mergeSort_perm _ segLE).mem_iff.mp hx3
          obtain ⟨u, hu, hu2⟩ := List.mem_map.mp hx4
          exact ⟨u, hu, hu2.symm⟩
        constructor
        · rcases mergeVertFold_fst rest c out hout with h1 | ⟨t, ht, h1⟩
          · obtain ⟨u, hu, hu2⟩ := hmemnd c (List.mem_cons_self c rest)
            exact ⟨u, hu, h1.trans (congrArg Prod.fst hu2)⟩
          · obtain ⟨u, hu, hu2⟩ := hmemnd t (List.mem_cons_of_mem c ht)
            exact ⟨u, hu, h1.trans (congrArg Prod.fst hu2)⟩
        · intro hv
          have hvnd : ∀ x : Seg ℚ, x ∈ c :: rest → x.1.1 = x.2.1 := by
            intro x hx
            obtain ⟨u, hu, hu2⟩ := hmemnd x hx
            have hu3 := hv u hu
            rcases sortPtsByY_cases u with he | he <;> rw [hu2, he]
            · exact hu3
            · exact hu3.symm
          exact mergeVertFold_vert rest c (hvnd c (List.mem_cons_self c rest))
            (fun t ht => hvnd t (List.mem_cons_of_mem c ht)) out hout
    · rw [if_neg hall] at h
      exact Option.noConfusion h

/-- Every member of the sloped merge starts at the first point of some
normalized input segment. -/
theorem merge_sloped_mem (ls : List (Seg ℚ)) (out : Seg ℚ)
    (hout : out ∈ merge_sloped_line_segments ls) :
    ∃ u ∈ ls, out.1 = (sortPts u).1 := by
  by_cases hnil : ls = []
  · subst hnil
    rw [merge_sloped_line_segments] at hout
    simp at hout
  · rw [merge_sloped_line_segments, if_neg hnil] at hout
    obtain ⟨p, hp, h1⟩ := mergeOuter_fst _ _ out hout
    have hp2 : p.2 ∈ remove_duplicates ((ls.map sortPts).mergeSort segLE) := by
      have hm := List.mem_map_of_mem Prod.snd hp
      rwa [List.enum_map_snd] at hm
    have hp3 := remove_duplicates_subset _ _ hp2
    have hp4 := (List.mergeSort_perm _ segLE).mem_iff.mp hp3
    obtain ⟨u, hu, hu2⟩ := List.mem_map.mp hp4
    exact ⟨u, hu, h1.trans (congrArg Prod.fst hu2.symm)⟩

/-- On inputs whose normalizations are all horizontal and non-vertical, the
sloped merge outputs horizontal segments. -/
theorem merge_sloped_horiz (ls : List (Seg ℚ))
    (hcond : ∀ u ∈ ls, (sortPts u).1.1 ≠ (sortPts u).2.1 ∧
      (sortPts u).1.2 = (sortPts u).2.2) :
    ∀ out ∈ merge_sloped_line_segments ls, out.1.2 = out.2.2 := by
  intro out hout
  by_cases hnil : ls = []
  · subst hnil
    rw [merge_sloped_line_segments] at hout
    simp at hout
  · rw [merge_sloped_line_segments, if_neg hnil] at hout
    apply mergeOuter_horiz _ _ ?_ out hout
    intro p hp
    have hp2 : p.2 ∈ remove_duplicates ((ls.map sortPts).mergeSort segLE) := by
      have hm := List.mem_map_of_mem Prod.snd hp
      rwa [List.enum_map_snd] at hm
    have hp3 := remove_duplicates_subset _ _ hp2
    have hp4 := (List.mergeSort_perm _ segLE).mem_iff.mp hp3
    obtain ⟨u, hu, hu2⟩ := List.mem_map.mp hp4
    rw [← hu2]
    exact hcond u hu

/-- Non-vertical survivors of the grid deduplication are horizontal and
equal to their own normalization. -/
theorem nonvert_survivor_horiz (grid : List (List ℤ)) (u : Seg ℚ)
    (hdx : 0 < gridDimX grid) (hdy : 0 < gridDimY grid)
    (hu : u ∈ (fewer_segments (maze_walls grid)).filter (fun s => !(is_vertical s))) :
    (sortPts u).1.1 ≠ (sortPts u).2.1 ∧ (sortPts u).1.2 = (sortPts u).2.2 := by
  have hu2 := List.mem_filter.mp hu
  have hnv : ¬ u.1.1 = u.2.1 := by
    have := hu2.2
    simp only [is_vertical, Bool.not_eq_eq_eq_not, Bool.not_true,
      decide_eq_false_iff_not] at this
    exact this
  have hufew := hu2.1
  have humem : u ∈ (maze_walls grid).map sortPts := fewer_subset_norm _ u hufew
  -- u is already normalized
  obtain ⟨w, _, hw⟩ := List.mem_map.mp humem
  have hid : sortPts u = u := by rw [← hw, sortPts_idem]
  rw [hid]
  refine ⟨hnv, ?_⟩
  rcases maze_walls_shapes grid u hdx hdy humem with h | h | h | h |
    ⟨a, b, _, _, _, h | h | h | h⟩ <;> rw [h] <;> rw [h] at hnv <;> first
    | rfl
    | (exact absurd rfl hnv)

/-- Vertical survivors of the grid deduplication have their bottom endpoint
first. -/
theorem vert_survivor_sorted (grid : List (List ℤ)) (u : Seg ℚ)
    (hdx : 0 < gridDimX grid) (hdy : 0 < gridDimY grid)
    (hu : u ∈ (fewer_segments (maze_walls grid)).filter (fun s => is_vertical s)) :
    sortPtsByY u = u := by
  have hu2 := List.mem_filter.mp hu
  have humem : u ∈ (maze_walls grid).map sortPts := fewer_subset_norm _ u hu2.1
  have hv : u.1.1 = u.2.1 := by
    have := hu2.2
    simp only [is_vertical, decide_eq_true_eq] at this
    exact this
  rw [sortPtsByY, if_neg]
  rw [not_lt]
  rcases maze_walls_shapes grid u hdx hdy humem with h | h | h | h |
    ⟨a, b, _, _, _, h | h | h | h⟩ <;> rw [h] <;> rw [h] at hv <;>
    simp only at hv ⊢ <;> linarith [hv]

/-- C3 core, vertical case: the shared vertical edge of two horizontally
adjacent occupied cells is not in the reduced wall set. -/
theorem interior_vertical_edge_removed (grid : List (List ℤ)) (cx cy : ℕ)
    (rwalls : List (Seg ℚ))
    (hx : cx + 1 < gridDimX grid) (hy : cy < gridDimY grid)
    (h1 : cellIsWall grid cx cy = true) (h2 : cellIsWall grid (cx + 1) cy = true)
    (hopt : optimize_walls (maze_walls grid) = some rwalls) :
    ((((cx : ℚ) + 1) * 12, (cy : ℚ) * 12),
     (((cx : ℚ) + 1) * 12, ((cy : ℚ) + 1) * 12)) ∉ rwalls := by
  have hdx : 0 < gridDimX grid := by omega
  have hdy : 0 < gridDimY grid := by omega
  intro hmem
  have hvcount := shared_vertical_edge_two grid cx cy hx hy h1 h2
  rcases optimize_walls_eq _ _ hopt with ⟨_, rfl⟩ | ⟨mv, hmv, rfl⟩
  · exact absurd hmem (List.not_mem_nil _)
  rcases List.mem_append.mp hmem with hs | hm
  · -- the sloped merge outputs only horizontal segments here
    have hhoriz := merge_sloped_horiz _
      (fun u hu => nonvert_survivor_horiz grid u hdx hdy hu) _ hs
    simp only at hhoriz
    linarith
  · -- the vertical merge: the output head point belongs to a vertical
    -- survivor, which can only be the removed shared edge
    obtain ⟨⟨u, hu, hu1⟩, _⟩ := merge_vertical_mem _ _ hmv _ hm
    rw [vert_survivor_sorted grid u hdx hdy hu] at hu1
    have hu2 := List.mem_filter.mp hu
    have hufew := hu2.1
    have hvv : u.1.1 = u.2.1 := by
      have := hu2.2
      simp only [is_vertical, decide_eq_true_eq] at this
      exact this
    have humem : u ∈ (maze_walls grid).map sortPts := fewer_subset_norm _ u hufew
    have hcount1 : segCount u ((maze_walls grid).map sortPts) = 1 :=
      (fewer_segments_mem _ u).mp hufew
    simp only at hu1
    have hcxq : (0 : ℚ) < ((cx : ℚ) + 1) * 12 := by positivity
    rcases maze_walls_shapes grid u hdx hdy humem with h | h | h | h |
      ⟨a, b, _, _, _, h | h | h | h⟩
    · rw [h] at hvv
      simp only at hvv
      have : (0 : ℚ) < (gridDimX grid : ℚ) := by exact_mod_cast hdx
      linarith
    · rw [h] at hu1
      simp only [Prod.mk.injEq] at hu1
      have : (gridDimX grid : ℚ) = (cx : ℚ) + 1 := by linarith [hu1.1]
      have hn : gridDimX grid = cx + 1 := by exact_mod_cast (by push_cast at this ⊢; linarith : (gridDimX grid : ℚ) = ((cx + 1 : ℕ) : ℚ))
      omega
    · rw [h] at hvv
      simp only at hvv
      have : (0 : ℚ) < (gridDimX grid : ℚ) := by exact_mod_cast hdx
      linarith
    · rw [h] at hu1
      simp only [Prod.mk.injEq] at hu1
      linarith [hu1.1]
    · rw [h] at hvv
      simp only at hvv
      linarith
    · -- right edge of cell (a, b): it is the shared edge itself
      rw [h] at hu1
      simp only [Prod.mk.injEq] at hu1
      have ha : (a : ℚ) = (cx : ℚ) := by linarith [hu1.1]
      have hb : (b : ℚ) = (cy : ℚ) := by linarith [hu1.2]
      rw [h, ha, hb] at hcount1
      omega
    · rw [h] at hvv
      simp only at hvv
      linarith
    · -- left edge of cell (a, b): it is the shared edge itself
      rw [h] at hu1
      simp only [Prod.mk.injEq] at hu1
      have ha : (a : ℚ) = (cx : ℚ) + 1 := by linarith [hu1.1]
      have hb : (b : ℚ) = (cy : ℚ) := by linarith [hu1.2]
      rw [h, ha, hb] at hcount1
      omega

/-- C3 core, horizontal case: the shared horizontal edge of two vertically
adjacent occupied cells is not in the reduced wall set. -/
theorem interior_horizontal_edge_removed (grid : List (List ℤ)) (cx cy : ℕ)
    (rwalls : List (Seg ℚ))
    (hx : cx < gridDimX grid) (hy : cy + 1 < gridDimY grid)
    (h1 : cellIsWall grid cx cy = true) (h2 : cellIsWall grid cx (cy + 1) = true)
    (hopt : optimize_walls (maze_walls grid) = some rwalls) :
    (((cx : ℚ) * 12, ((cy : ℚ) + 1) * 12),
     (((cx : ℚ) + 1) * 12, ((cy : ℚ) + 1) * 12)) ∉ rwalls := by
  have hdx : 0 < gridDimX grid := by omega
  have hdy : 0 < gridDimY grid := by omega
  intro hmem
  have hhcount := shared_horizontal_edge_two grid cx cy hx hy h1 h2
  rcases optimize_walls_eq _ _ hopt with ⟨_, rfl⟩ | ⟨mv, hmv, rfl⟩
  · exact absurd hmem (List.not_mem_nil _)
  rcases List.mem_append.mp hmem with hs | hm
  · -- the sloped merge: the output head point belongs to a horizontal
    -- survivor, which can only be the removed shared edge
    obtain ⟨u, hu, hu1⟩ := merge_sloped_mem _ _ hs
    have hu2 := List.mem_filter.mp hu
    have hufew := hu2.1
    have humem : u ∈ (maze_walls grid).map sortPts := fewer_subset_norm _ u hufew
    obtain ⟨w, _, hw⟩ := List.mem_map.mp humem
    have hid : sortPts u = u := by rw [← hw, sortPts_idem]
    rw [hid] at hu1
    have hnv : ¬ u.1.1 = u.2.1 := by
      have := hu2.2
      simp only [is_vertical, Bool.not_eq_eq_eq_not, Bool.not_true,
        decide_eq_false_iff_not] at this
      exact this
    have hcount1 : segCount u ((maze_walls grid).map sortPts) = 1 :=
      (fewer_segments_mem _ u).mp hufew
    simp only at hu1
    rcases maze_walls_shapes grid u hdx hdy humem with h | h | h | h |
      ⟨a, b, _, _, _, h | h | h | h⟩
    · rw [h] at hu1
      simp only [Prod.mk.injEq] at hu1
      linarith [hu1.2]
    · rw [h] at hnv
      exact hnv rfl
    · rw [h] at hu1
      simp only [Prod.mk.injEq] at hu1
      have : ((cy : ℚ) + 1) * 12 = (gridDimY grid : ℚ) * 12 := hu1.2
      have hn : gridDimY grid = cy + 1 := by
        exact_mod_cast (by push_cast; linarith : ((gridDimY grid : ℕ) : ℚ) = ((cy + 1 : ℕ) : ℚ))
      omega
    · rw [h] at hnv
      exact hnv rfl
    · -- bottom edge of cell (a, b): it is the shared edge itself
      rw [h] at hu1
      simp only [Prod.mk.injEq] at hu1
      have ha : (a : ℚ) = (cx : ℚ) := by linarith [hu1.1]
      have hb : (b : ℚ) = (cy : ℚ) + 1 := by linarith [hu1.2]
      rw [h, ha, hb] at hcount1
      omega
    · rw [h] at hnv
      exact hnv rfl
    · -- top edge of cell (a, b): it is the shared edge itself
      rw [h] at hu1
      simp only [Prod.mk.injEq] at hu1
      have ha : (a : ℚ) = (cx : ℚ) := by linarith [hu1.1]
      have hb : (b : ℚ) = (cy : ℚ) := by linarith [hu1.2]
      rw [h, ha, hb] at hcount1
      omega
    · rw [h] at hnv
      exact hnv rfl
  · -- the vertical merge outputs only vertical segments
    obtain ⟨_, hvert⟩ := merge_vertical_mem _ _ hmv _ hm
    have hv := hvert ?_
    · simp only at hv
      linarith
    · intro s hsv
      have := (List.mem_filter.mp hsv).2
      simp only [is_vertical, decide_eq_true_eq] at this
      exact this

/-- C3.  Claim: For every occupancy grid, after flattening all wall squares
into a normalized, lexicographically sorted segment list, exactly the
segments with multiplicity 1 survive the deduplication step; in particular,
for every pair of adjacent occupied cells, their shared edge segment does
not appear in the ReducedWallSet (cells are adjacent horizontally or
vertically; the wall segment length is the configured 12 inches). -/
theorem C3_dedup_and_interior_edges :
    (∀ (ls : List (Seg ℚ)) (s : Seg ℚ),
      s ∈ fewer_segments ls ↔ segCount s (ls.map sortPts) = 1) ∧
    (∀ (grid : List (List ℤ)) (cx cy : ℕ) (rwalls : List (Seg ℚ)),
      cx + 1 < gridDimX grid → cy < gridDimY grid →
      cellIsWall grid cx cy = true → cellIsWall grid (cx + 1) cy = true →
      optimize_walls (maze_walls grid) = some rwalls →
      ((((cx : ℚ) + 1) * 12, (cy : ℚ) * 12),
       (((cx : ℚ) + 1) * 12, ((cy : ℚ) + 1) * 12)) ∉ rwalls) ∧
    (∀ (grid : List (List ℤ)) (cx cy : ℕ) (rwalls : List (Seg ℚ)),
      cx < gridDimX grid → cy + 1 < gridDimY grid →
      cellIsWall grid cx cy = true → cellIsWall grid cx (cy + 1) = true →
      optimize_walls (maze_walls grid) = some rwalls →
      (((cx : ℚ) * 12, ((cy : ℚ) + 1) * 12),
       (((cx : ℚ) + 1) * 12, ((cy : ℚ) + 1) * 12)) ∉ rwalls) :=
  ⟨fewer_segments_mem,
   fun grid cx cy rwalls hx hy h1 h2 hopt =>
     interior_vertical_edge_removed grid cx cy rwalls hx hy h1 h2 hopt,
   fun grid cx cy rwalls hx hy h1 h2 hopt =>
     interior_horizontal_edge_removed grid cx cy rwalls hx hy h1 h2 hopt⟩

/-- C3 witness: the dedup characterization and both interior-edge removals
instantiated on concrete grids.  The 1-by-2 grid of two occupied cells
reduces to its two horizontal runs; the 2-by-1 grid reduces to its two
vertical runs; neither contains the shared interior edge. -/
theorem C3_dedup_and_interior_edges_witness :
    ((((2 : ℚ), (2 : ℚ)), ((3 : ℚ), (3 : ℚ))) ∈ fewer_segments
      [((((0 : ℚ), (0 : ℚ)), ((1 : ℚ), (1 : ℚ))) : Seg ℚ),
       (((1 : ℚ), (1 : ℚ)), ((0 : ℚ), (0 : ℚ))),
       (((2 : ℚ), (2 : ℚ)), ((3 : ℚ), (3 : ℚ)))]) ∧
    (((((0 : ℕ) : ℚ) + 1) * 12, ((0 : ℕ) : ℚ) * 12) ,
      ((((0 : ℕ) : ℚ) + 1) * 12, (((0 : ℕ) : ℚ) + 1) * 12)) ∉
      ([((0, 0), (24, 0)), ((0, 12), (24, 12))] : List (Seg ℚ)) ∧
    ((((0 : ℕ) : ℚ) * 12, (((0 : ℕ) : ℚ) + 1) * 12) ,
      ((((0 : ℕ) : ℚ) + 1) * 12, (((0 : ℕ) : ℚ) + 1) * 12)) ∉
      ([((0, 0), (0, 24)), ((12, 0), (12, 24))] : List (Seg ℚ)) := by
  refine ⟨?_, ?_, ?_⟩
  · apply (C3_dedup_and_interior_edges.1 _ _).mpr
    norm_num [-Prod.mk_zero_zero, Prod.mk.injEq, segCount, sortPts, ptLTb,
      List.countP_cons, List.countP_nil]
  · apply C3_dedup_and_interior_edges.2.1 [[0, 0]] 0 0
      ([((0, 0), (24, 0)), ((0, 12), (24, 12))] : List (Seg ℚ))
      (by decide) (by decide) (by decide) (by decide)
    norm_num [-Prod.mk_zero_zero, Prod.mk.injEq, optimize_walls, maze_walls,
      wall_squares, gridDimX, gridDimY,
      cellIsWall, boundarySquare, cellSquare, scaleSeg, scalePt,
      fewer_segments, normalized_sorted, segCount, merge_sloped_line_segments,
      merge_vertical_line_segments, List.mergeSort, List.merge,
      sortPts, sortPtsByY, ptLTb, ptLEb, segLE, remove_duplicates,
      List.enum, List.enumFrom, mergeOuter, mergeInner, mergeVertFold,
      slopeIntercept, siEq, floatEq, listMax, is_vertical, List.range,
      List.range.loop, List.filterMap_cons, List.getD, Function.comp,
      List.headD, List.countP_cons, List.countP_nil, List.filter_cons,
      List.filter_nil]
    simp
  · apply C3_dedup_and_interior_edges.2.2 [[0], [0]] 0 0
      ([((0, 0), (0, 24)), ((12, 0), (12, 24))] : List (Seg ℚ))
      (by decide) (by decide) (by decide) (by decide)
    norm_num [-Prod.mk_zero_zero, Prod.mk.injEq, optimize_walls, maze_walls,
      wall_squares, gridDimX, gridDimY,
      cellIsWall, boundarySquare, cellSquare, scaleSeg, scalePt,
      fewer_segments, normalized_sorted, segCount, merge_sloped_line_segments,
      merge_vertical_line_segments, List.mergeSort, List.merge,
      sortPts, sortPtsByY, ptLTb, ptLEb, segLE, remove_duplicates,
      List.enum, List.enumFrom, mergeOuter, mergeInner, mergeVertFold,
      slopeIntercept, siEq, floatEq, listMax, is_vertical, List.range,
      List.range.loop, List.filterMap_cons, List.getD, Function.comp,
      List.headD, List.countP_cons, List.countP_nil, List.filter_cons,
      List.filter_nil]
    simp

/-- C8 (counterexample).  The original claim fails for the sloped merge:
three collinear pairwise-overlapping segments [(0,0)-(4,4), (1,1)-(9,9),
(2,2)-(5,5)] merge to the single segment (0,0)-(5,5), which does not span
their union — the input endpoint (9,9) lies outside it (the merge loop
overwrites the running right endpoint with max(segment1[1], segment2[1]),
discarding the extent of the previously merged segment). -/
theorem C8_union_counterexample :
    merge_sloped_line_segments
      ([((0, 0), (4, 4)), ((1, 1), (9, 9)), ((2, 2), (5, 5))] : List (Seg ℚ)) =
      [((0, 0), (5, 5))] ∧
    (((1 : ℚ), (1 : ℚ)), ((9 : ℚ), (9 : ℚ))) ∈
      ([((0, 0), (4, 4)), ((1, 1), (9, 9)), ((2, 2), (5, 5))] : List (Seg ℚ)) ∧
    on_segment ((0 : ℚ), (0 : ℚ)) ((9 : ℚ), (9 : ℚ)) ((5 : ℚ), (5 : ℚ)) = false := by
  refine ⟨?_, ?_, ?_⟩
  · norm_num [merge_sloped_line_segments, List.mergeSort, List.merge,
      sortPts, ptLTb, ptLEb, segLE, remove_duplicates, List.enum, List.enumFrom,
      mergeOuter, mergeInner, slopeIntercept, siEq, floatEq, listMax]
    exact List.cons_ne_nil _ _
  · simp
  · norm_num [on_segment]

/-- C8 witness: the amended claim instantiated at a concrete connected
vertical family. -/
theorem C8_merge_span_idempotent_witness :
    merge_vertical_line_segments
      ([((0, 0), (0, 2)), ((0, 1), (0, 5))] : List (Seg ℚ)) =
      some [((0, 0), (0, 5))] ∧
    merge_vertical_line_segments ([((0, 0), (0, 5))] : List (Seg ℚ)) =
      some [((0, 0), (0, 5))] ∧
    ∀ s : Seg ℚ, merge_sloped_line_segments [s] = [sortPts s] := by
  apply C8_merge_span_idempotent
    ([((0, 0), (0, 2)), ((0, 1), (0, 5))] : List (Seg ℚ)) 0 0 5
  · simp
  · intro s hs
    rcases List.mem_cons.mp hs with rfl | hs
    · exact ⟨rfl, rfl⟩
    · rcases List.mem_cons.mp hs with rfl | hs
      · exact ⟨rfl, rfl⟩
      · exact absurd hs (List.not_mem_nil s)
  · intro s hs
    rcases List.mem_cons.mp hs with rfl | hs
    · norm_num
    · rcases List.mem_cons.mp hs with rfl | hs
      · norm_num
      · exact absurd hs (List.not_mem_nil s)
  · norm_num [List.nodup_cons, Prod.ext_iff]
  · intro y
    constructor
    · rintro ⟨h0, h5⟩
      rcases le_total y 2 with hc | hc
      · exact ⟨((0, 0), (0, 2)), List.mem_cons_self _ _, h0, hc⟩
      · refine ⟨((0, 1), (0, 5)), List.mem_cons_of_mem _ (List.mem_cons_self _ _),
          ?_, h5⟩
        show (1 : ℚ) ≤ y
        linarith
    · rintro ⟨s, hs, h1, h2⟩
      rcases List.mem_cons.mp hs with rfl | hs
      · simp only at h1 h2
        constructor <;> linarith
      · rcases List.mem_cons.mp hs with rfl | hs
        · simp only at h1 h2
          constructor <;> linarith
        · exact absurd hs (List.not_mem_nil s)


/-! ### Wire protocol framing (C7) -/

/-- The first-occurrence index returned by strFind bounds a marker-free
prefix. -/
theorem strFind_not_mem_take (c : Char) :
    ∀ (s : List Char) (i : ℕ), strFind c s = some i → c ∉ s.take i := by
  intro s
  induction s with
  | nil => intro i h; rw [strFind] at h; exact Option.noConfusion h
  | cons a rest ih =>
    intro i h
    rw [strFind] at h
    split_ifs at h with ha
    · obtain rfl : (0 : ℕ) = i := Option.some.inj h
      simp
    · cases hj : strFind c rest with
      | none => rw [hj] at h; exact Option.noConfusion h
      | some j =>
        rw [hj] at h
        obtain rfl : j + 1 = i := Option.some.inj h
        rw [List.take_succ_cons]
        intro hmem
        rcases List.mem_cons.mp hmem with rfl | hmem2
        · exact ha rfl
        · exact ih j hj hmem2

/-- The [] to comma replacement is the identity on strings without the end
marker. -/
theorem replaceStartEnd_of_not_mem :
    ∀ (l : List Char), frame_end ∉ l → replaceStartEnd l = l := by
  have main : ∀ (n : ℕ) (l : List Char), l.length ≤ n → frame_end ∉ l →
      replaceStartEnd l = l := by
    intro n
    induction n with
    | zero =>
      intro l hl _
      rw [List.eq_nil_of_length_eq_zero (Nat.le_zero.mp hl)]
      rw [replaceStartEnd]
    | succ n ih =>
      intro l hl hnm
      match l with
      | [] => rw [replaceStartEnd]
      | [a] => rw [replaceStartEnd]
      | a :: b :: rest =>
        rw [replaceStartEnd, if_neg]
        · have : replaceStartEnd (b :: rest) = b :: rest := by
            apply ih
            · simpa using Nat.le_of_succ_le_succ (by simpa using hl)
            · intro hc
              exact hnm (List.mem_cons_of_mem a hc)
          rw [this]
        · rintro ⟨_, hb⟩
          exact hnm (List.mem_cons_of_mem a (hb ▸ List.mem_cons_self b rest))
  exact fun l => main l.length l le_rfl

/-- The slice strictly between the first markers contains no end marker. -/
theorem slice_no_end_marker (data : List Char) (start stop : ℕ)
    (he : strFind frame_end data = some stop) :
    frame_end ∉ (data.drop (start + 1)).take (stop - (start + 1)) := by
  intro hmem
  rcases Nat.le_total stop (start + 1) with hc | hc
  · rw [Nat.sub_eq_zero_of_le hc] at hmem
    simp at hmem
  · have hdecomp : data.take stop =
        data.take (start + 1) ++ (data.drop (start + 1)).take (stop - (start + 1)) := by
      rw [← List.take_add]
      congr 1
      omega
    apply strFind_not_mem_take frame_end data stop he
    rw [hdecomp]
    exact List.mem_append_right _ hmem

/-- C7 (amended).  Claim, as amended: for every raw inbound string whose
first start marker occurs at or before its first end marker, depacketizing
returns exactly the characters strictly between the FIRST start marker and
the FIRST end marker; the replacement of the two-character pattern [] by a
comma never fires, since the returned slice contains no end marker, so a
multi-segment framed message yields only its first segment and no comma
joining occurs.  (The original claim of collapsing back-to-back ][
boundaries into commas is refuted by C7_multi_segment_counterexample.) -/
theorem C7_first_slice (data : List Char) (start stop : ℕ)
    (hs : strFind frame_start data = some start)
    (he : strFind frame_end data = some stop)
    (hle : start ≤ stop) :
    depacketize data =
      some ((data.drop (start + 1)).take (stop - (start + 1))) ∧
    frame_end ∉ (data.drop (start + 1)).take (stop - (start + 1)) := by
  have hnm := slice_no_end_marker data start stop he
  constructor
  · rw [depacketize, hs, he]
    show (if start ≤ stop then
        some (replaceStartEnd ((data.drop (start + 1)).take (stop - (start + 1))))
      else none) = _
    rw [if_pos hle, replaceStartEnd_of_not_mem _ hnm]
  · exact hnm

/-- C7 witness: the amended behavior on the two-segment framed message
"[a][b]". -/
theorem C7_first_slice_witness :
    depacketize ['[', 'a', ']', '[', 'b', ']'] = some ['a'] ∧
    frame_end ∉ ['a'] := by
  have h := C7_first_slice ['[', 'a', ']', '[', 'b', ']'] 0 2
    (by decide) (by decide) (by decide)
  exact ⟨by rw [h.1]; rfl, h.2⟩

/-- C7 (counterexample).  The original claim fails: depacketizing the
two-segment framed message "[a][b]" yields "a", not the comma-joined
"a,b" — everything after the first end marker is discarded, and the
replacement pattern is "[]", not "][". -/
theorem C7_multi_segment_counterexample :
    depacketize ['[', 'a', ']', '[', 'b', ']'] = some ['a'] ∧
    some ['a'] ≠ some ['a', ',', 'b'] := by
  constructor
  · decide
  · intro h
    exact List.noConfusion (List.cons.inj (Option.some.inj h)).2

/-- move_update leaves every field except the motors and the move buffer
unchanged. -/
theorem move_update_keeps (d : Drive) :
    (move_update d).1.velocity = d.velocity ∧
    (move_update d).1.rotation_speed = d.rotation_speed ∧
    (move_update d).1.velocity_direction = d.velocity_direction ∧
    (move_update d).1.odometer_multiplier = d.odometer_multiplier ∧
    (move_update d).1.bias_linear = d.bias_linear ∧
    (move_update d).1.bias_rotation = d.bias_rotation :=
  ⟨rfl, rfl, rfl, rfl, rfl, rfl⟩

/-- With a nonnegative buffer, one frame decrements the buffer by the
clamped per-frame amount. -/
theorem move_update_buffer (d : Drive) (hb : 0 ≤ d.move_buffer) :
    (move_update d).1.move_buffer =
      d.move_buffer - min d.move_buffer (d.rotation_speed + vlen d.velocity) := by
  simp only [move_update, ge_iff_le, if_pos hb]

/-- With a nonnegative buffer, the returned frame displacement is the
velocity direction (plus bias) scaled by the clamped amount. -/
theorem move_update_disp (d : Drive) (hb : 0 ≤ d.move_buffer) :
    (move_update d).2.1.1 =
      d.velocity_direction.1 * min d.move_buffer (d.rotation_speed + vlen d.velocity)
        + min d.move_buffer (d.rotation_speed + vlen d.velocity) * d.bias_linear.1 ∧
    (move_update d).2.1.2 =
      d.velocity_direction.2 * min d.move_buffer (d.rotation_speed + vlen d.velocity)
        + min d.move_buffer (d.rotation_speed + vlen d.velocity) * d.bias_linear.2 ∧
    (move_update d).2.2 =
      (if d.rotation_speed ≠ 0 then
        min d.move_buffer (d.rotation_speed + vlen d.velocity) else 0)
        + min d.move_buffer (d.rotation_speed + vlen d.velocity) * d.bias_rotation := by
  refine ⟨?_, ?_, ?_⟩ <;> simp only [move_update, ge_iff_le, if_pos hb]

/-- With a nonnegative buffer, one frame adds amount × multiplier to each
zipped odometer and keeps the unzipped motor suffix. -/
theorem move_update_motors (d : Drive) (hb : 0 ≤ d.move_buffer) :
    (move_update d).1.motors =
      List.zipWith (fun m inc => { m with odometer :=
          (m.odometer + min d.move_buffer (d.rotation_speed + vlen d.velocity) * inc) })
        d.motors d.odometer_multiplier ++ d.motors.drop d.odometer_multiplier.length := by
  simp only [move_update, ge_iff_le, if_pos hb]

/-- With a negative buffer, one frame raises the buffer by the clamped
per-frame amount (the reverse branch of move_update). -/
theorem move_update_buffer_neg (d : Drive) (hb : d.move_buffer < 0) :
    (move_update d).1.move_buffer =
      d.move_buffer - max d.move_buffer (-(d.rotation_speed + vlen d.velocity)) := by
  simp only [move_update, ge_iff_le, if_neg (not_le.mpr hb)]

/-- Branch-free accounting for one frame: whatever the buffer's sign, the
returned displacement and rotation and the odometer increments all use
exactly this frame's buffer decrease. -/
theorem move_update_ret (d : Drive) :
    (move_update d).2.1.1 =
      d.velocity_direction.1 * (d.move_buffer - (move_update d).1.move_buffer)
        + (d.move_buffer - (move_update d).1.move_buffer) * d.bias_linear.1 ∧
    (move_update d).2.1.2 =
      d.velocity_direction.2 * (d.move_buffer - (move_update d).1.move_buffer)
        + (d.move_buffer - (move_update d).1.move_buffer) * d.bias_linear.2 ∧
    (move_update d).2.2 =
      (if d.rotation_speed ≠ 0 then d.move_buffer - (move_update d).1.move_buffer else 0)
        + (d.move_buffer - (move_update d).1.move_buffer) * d.bias_rotation ∧
    (move_update d).1.motors =
      List.zipWith (fun m inc => { m with odometer :=
          (m.odometer + (d.move_buffer - (move_update d).1.move_buffer) * inc) })
        d.motors d.odometer_multiplier ++ d.motors.drop d.odometer_multiplier.length := by
  have key : d.move_buffer - (move_update d).1.move_buffer =
      (if d.move_buffer ≥ 0 then min d.move_buffer (d.rotation_speed + vlen d.velocity)
       else max d.move_buffer (-(d.rotation_speed + vlen d.velocity))) := by
    show d.move_buffer - (d.move_buffer -
        (if d.move_buffer ≥ 0 then min d.move_buffer (d.rotation_speed + vlen d.velocity)
         else max d.move_buffer (-(d.rotation_speed + vlen d.velocity)))) = _
    rw [sub_sub_cancel]
  refine ⟨?_, ?_, ?_, ?_⟩ <;> rw [key] <;> rfl


/-- zipWith of a function ignoring the second list is the identity when the
lists have equal length. -/
theorem zipWith_motor_id : ∀ (ms : List Motor) (is : List ℝ),
    ms.length = is.length → List.zipWith (fun m (_ : ℝ) => m) ms is = ms := by
  intro ms
  induction ms with
  | nil => intro is _; rfl
  | cons m ms ih =>
    intro is h
    cases is with
    | nil => simp at h
    | cons i is =>
      simp only [List.zipWith]
      rw [ih is (by simpa using h)]

/-- Fusing two zipWith passes against the same second list. -/
theorem zipWith_motor_fuse (f g : Motor → ℝ → Motor) :
    ∀ (ms : List Motor) (is : List ℝ),
    List.zipWith g (List.zipWith f ms is) is =
      List.zipWith (fun m i => g (f m i) i) ms is := by
  intro ms
  induction ms with
  | nil => intro is; rfl
  | cons m ms ih =>
    intro is
    cases is with
    | nil => rfl
    | cons i is =>
      simp only [List.zipWith]
      rw [ih]

/-- Pointwise equal zip functions give equal zipWiths. -/
theorem zipWith_motor_congr (f g : Motor → ℝ → Motor) (h : ∀ m i, f m i = g m i) :
    ∀ (ms : List Motor) (is : List ℝ), List.zipWith f ms is = List.zipWith g ms is := by
  intro ms
  induction ms with
  | nil => intro is; rfl
  | cons m ms ih =>
    intro is
    cases is with
    | nil => rfl
    | cons i is =>
      simp only [List.zipWith]
      rw [ih, h]

/-- n frames drain a nonnegative buffer linearly in the per-frame amount,
clamping at zero. -/
theorem move_updates_buffer (n : ℕ) :
    ∀ d : Drive, 0 ≤ d.move_buffer → 0 ≤ d.rotation_speed + vlen d.velocity →
    (move_updates d n).1.move_buffer =
      max (d.move_buffer - n * (d.rotation_speed + vlen d.velocity)) 0 := by
  induction n with
  | zero =>
    intro d hb _
    simp only [move_updates, Nat.cast_zero, zero_mul, sub_zero]
    exact (max_eq_left hb).symm
  | succ n ih =>
    intro d hb hs
    have hmin : min d.move_buffer (d.rotation_speed + vlen d.velocity) ≤ d.move_buffer :=
      min_le_left _ _
    have hb' : 0 ≤ (move_update d).1.move_buffer := by
      rw [move_update_buffer d hb]; linarith
    have hrs : (move_update d).1.rotation_speed = d.rotation_speed := rfl
    have hv : (move_update d).1.velocity = d.velocity := rfl
    have key := ih (move_update d).1 hb' (by rw [hrs, hv]; exact hs)
    show (move_updates (move_update d).1 n).1.move_buffer = _
    rw [key, hrs, hv, move_update_buffer d hb]
    rcases le_total d.move_buffer (d.rotation_speed + vlen d.velocity) with h | h
    · rw [min_eq_left h]
      have hn : (0 : ℝ) ≤ (n : ℝ) * (d.rotation_speed + vlen d.velocity) :=
        mul_nonneg (Nat.cast_nonneg n) hs
      have h1 : d.move_buffer - d.move_buffer - n * (d.rotation_speed + vlen d.velocity) ≤ 0 := by
        linarith
      have h2 : d.move_buffer - ((n : ℕ) + 1 : ℕ) * (d.rotation_speed + vlen d.velocity) ≤ 0 := by
        push_cast
        nlinarith
      rw [max_eq_right h1, max_eq_right h2]
    · rw [min_eq_right h]
      congr 1
      push_cast
      ring

/-- n frames raise a nonpositive buffer linearly toward zero, clamping at
zero: the drain law of reverse (negative) commands. -/
theorem move_updates_buffer_neg (n : ℕ) :
    ∀ d : Drive, 0 ≤ d.rotation_speed + vlen d.velocity → d.move_buffer ≤ 0 →
    (move_updates d n).1.move_buffer =
      min (d.move_buffer + n * (d.rotation_speed + vlen d.velocity)) 0 := by
  induction n with
  | zero =>
    intro d _ hb
    simp only [move_updates, Nat.cast_zero, zero_mul, add_zero]
    exact (min_eq_left hb).symm
  | succ n ih =>
    intro d hs hb
    have hrs : (move_update d).1.rotation_speed = d.rotation_speed := rfl
    have hv : (move_update d).1.velocity = d.velocity := rfl
    have hn : (0 : ℝ) ≤ (n : ℝ) * (d.rotation_speed + vlen d.velocity) :=
      mul_nonneg (Nat.cast_nonneg n) hs
    rcases lt_or_eq_of_le hb with hlt | heq
    · have hbuf := move_update_buffer_neg d hlt
      have hb' : (move_update d).1.move_buffer ≤ 0 := by
        rw [hbuf]
        have := le_max_left d.move_buffer (-(d.rotation_speed + vlen d.velocity))
        linarith
      have key := ih (move_update d).1 (by rw [hrs, hv]; exact hs) hb'
      show (move_updates (move_update d).1 n).1.move_buffer = _
      rw [key, hrs, hv, hbuf]
      rcases le_total (-(d.rotation_speed + vlen d.velocity)) d.move_buffer with h | h
      · rw [max_eq_left h]
        have h1 : 0 ≤ d.move_buffer - d.move_buffer +
            n * (d.rotation_speed + vlen d.velocity) := by
          linarith
        have h2 : 0 ≤ d.move_buffer +
            ((n : ℕ) + 1 : ℕ) * (d.rotation_speed + vlen d.velocity) := by
          push_cast
          nlinarith
        rw [min_eq_right h1, min_eq_right h2]
      · rw [max_eq_right h]
        congr 1
        push_cast
        ring
    · have hbuf : (move_update d).1.move_buffer = 0 := by
        rw [move_update_buffer d (le_of_eq heq.symm), heq, min_eq_left hs]
        norm_num
      have key := ih (move_update d).1 (by rw [hrs, hv]; exact hs) (le_of_eq hbuf)
      show (move_updates (move_update d).1 n).1.move_buffer = _
      rw [key, hrs, hv, hbuf, heq]
      have hn1 : (0 : ℝ) ≤ (((n : ℕ) + 1 : ℕ) : ℝ) * (d.rotation_speed + vlen d.velocity) := by
        push_cast
        nlinarith
      rw [min_eq_right (by linarith), min_eq_right (by linarith)]

/-- With zero bias, the displacements and rotations returned over n frames
sum to the velocity direction (resp. the rotation indicator) scaled by the
total buffer decrease, whatever the sign of the commanded value. -/
theorem move_updates_sum (n : ℕ) :
    ∀ d : Drive, d.bias_linear = (0, 0) → d.bias_rotation = 0 →
    (move_updates d n).2.1.1 =
      d.velocity_direction.1 * (d.move_buffer - (move_updates d n).1.move_buffer) ∧
    (move_updates d n).2.1.2 =
      d.velocity_direction.2 * (d.move_buffer - (move_updates d n).1.move_buffer) ∧
    (move_updates d n).2.2 =
      (if d.rotation_speed ≠ 0 then (1 : ℝ) else 0) *
        (d.move_buffer - (move_updates d n).1.move_buffer) := by
  induction n with
  | zero =>
    intro d _ _
    refine ⟨?_, ?_, ?_⟩ <;> simp only [move_updates] <;> ring
  | succ n ih =>
    intro d hbl hbr
    have hbl' : (move_update d).1.bias_linear = (0, 0) := hbl
    have hbr' : (move_update d).1.bias_rotation = 0 := hbr
    have key := ih (move_update d).1 hbl' hbr'
    have hvd : (move_update d).1.velocity_direction = d.velocity_direction := rfl
    have hrs : (move_update d).1.rotation_speed = d.rotation_speed := rfl
    have hret := move_update_ret d
    rw [hvd, hrs] at key
    refine ⟨?_, ?_, ?_⟩
    · show (move_update d).2.1.1 + (move_updates (move_update d).1 n).2.1.1 =
        d.velocity_direction.1 *
          (d.move_buffer - (move_updates (move_update d).1 n).1.move_buffer)
      rw [key.1, hret.1, hbl]
      ring
    · show (move_update d).2.1.2 + (move_updates (move_update d).1 n).2.1.2 =
        d.velocity_direction.2 *
          (d.move_buffer - (move_updates (move_update d).1 n).1.move_buffer)
      rw [key.2.1, hret.2.1, hbl]
      ring
    · show (move_update d).2.2 + (move_updates (move_update d).1 n).2.2 =
        (if d.rotation_speed ≠ 0 then (1 : ℝ) else 0) *
          (d.move_buffer - (move_updates (move_update d).1 n).1.move_buffer)
      rw [key.2.2, hret.2.2.1, hbr]
      by_cases hrs0 : d.rotation_speed ≠ 0
      · rw [if_pos hrs0, if_pos hrs0]
        ring
      · rw [if_neg hrs0, if_neg hrs0]
        ring

/-- When every motor is zipped (equal list lengths), n frames add the total
buffer decrease times its multiplier to each motor odometer, whatever the
sign of the commanded value. -/
theorem move_updates_motors (n : ℕ) :
    ∀ d : Drive, d.motors.length = d.odometer_multiplier.length →
    (move_updates d n).1.motors =
      List.zipWith (fun m inc => { m with odometer :=
          (m.odometer + (d.move_buffer - (move_updates d n).1.move_buffer) * inc) })
        d.motors d.odometer_multiplier := by
  induction n with
  | zero =>
    intro d hlen
    show d.motors = _
    simp only [move_updates, sub_self, zero_mul, add_zero]
    exact (zipWith_motor_id d.motors d.odometer_multiplier hlen).symm
  | succ n ih =>
    intro d hlen
    have hret := move_update_ret d
    have hmot : (move_update d).1.motors =
        List.zipWith (fun m inc => { m with odometer :=
            (m.odometer + (d.move_buffer - (move_update d).1.move_buffer) * inc) })
          d.motors d.odometer_multiplier := by
      rw [hret.2.2.2, ← hlen, List.drop_length, List.append_nil]
    have hmul : (move_update d).1.odometer_multiplier = d.odometer_multiplier := rfl
    have hlen' : (move_update d).1.motors.length =
        (move_update d).1.odometer_multiplier.length := by
      rw [hmot, hmul, List.length_zipWith, hlen, min_self]
    have key := ih (move_update d).1 hlen'
    rw [hmul, hmot] at key
    show (move_updates (move_update d).1 n).1.motors = _
    rw [key, zipWith_motor_fuse]
    refine zipWith_motor_congr _ _ (fun m i => ?_) _ _
    have hval : m.odometer + (d.move_buffer - (move_update d).1.move_buffer) * i +
        ((move_update d).1.move_buffer -
          (move_updates (move_update d).1 n).1.move_buffer) * i =
        m.odometer + (d.move_buffer -
          (move_updates (move_update d).1 n).1.move_buffer) * i := by
      ring
    show Motor.mk m.position m.rotation
        (m.odometer + (d.move_buffer - (move_update d).1.move_buffer) * i +
          ((move_update d).1.move_buffer -
            (move_updates (move_update d).1 n).1.move_buffer) * i) = _
    rw [hval]
    rfl

/-- The per-frame speed of the w0 drive: |(0, 6)| / 60 = 0.1 inches. -/
theorem vlen_w0 : vlen ((0 : ℝ), 1 / 10) = 1 / 10 := by
  rw [vlen, show ((0 : ℝ) ^ 2 + (1 / 10) ^ 2) = (1 / 10) ^ 2 by norm_num]
  exact Real.sqrt_sq (by norm_num)

/-- A motor mounted at rotation 0 points straight up. -/
theorem point_vector_flat (p : ℝ × ℝ) (od : ℝ) :
    point_vector ⟨p, 0, od⟩ = (0, 1) := by
  rw [point_vector, rotateDeg]
  norm_num

/-- The angle of a vector to itself is zero. -/
theorem angle_to_self (v : ℝ × ℝ) : angle_to v v = 0 := by
  rw [angle_to, sub_self, zero_mul, zero_div]

/-- Both w0 motors get odometer multiplier 1: they point along the drive
direction, so the slip compensation divides by cos 0 = 1. -/
theorem w0_multiplier :
    get_odometer_multiplier ((0 : ℝ), 1 / 10) ((0 : ℝ), 1) 0
      [⟨(2, 0), 0, 0⟩, ⟨(-2, 0), 0, 0⟩] [1, 1] = [1, 1] := by
  have hv : vlen ((0 : ℝ), 1 / 10) ≠ 0 := by rw [vlen_w0]; norm_num
  have hpv : ∀ (p : ℝ × ℝ), angle_to ((0 : ℝ), 1) (point_vector ⟨p, 0, 0⟩) = 0 := by
    intro p
    rw [point_vector_flat]
    exact angle_to_self _
  rw [get_odometer_multiplier]
  simp only [List.zip, List.zipWith, List.map]
  rw [if_pos hv, if_pos hv, hpv, hpv]
  norm_num

/-- Drive.__init__ on the w0 configuration produces exactly w0_drive. -/
theorem driveInit_w0 : driveInit w0_info = some w0_drive := by
  have hv1 : w0_info.velocity.1 / frame_rate = (0 : ℝ) := by
    show (0 : ℝ) / 60 = 0; norm_num
  have hv2 : w0_info.velocity.2 / frame_rate = (1 : ℝ) / 10 := by
    show (6 : ℝ) / 60 = 1 / 10; norm_num
  have hne : ((0 : ℝ), (1 : ℝ) / 10) ≠ ((0 : ℝ), (0 : ℝ)) := by
    intro h
    have h2 := congrArg Prod.snd h
    norm_num at h2
  rw [driveInit, if_neg (by decide), hv1, hv2]
  rw [if_pos hne, vlen_w0]
  rw [show w0_info.ang_velocity / frame_rate = (0 : ℝ) by
    show (0 : ℝ) / 60 = 0; norm_num]
  rw [if_neg (by norm_num : ¬((0 : ℝ) ≠ 0))]
  rw [show (0 : ℝ) / (1 / 10) = 0 by norm_num,
    show (1 : ℝ) / 10 / (1 / 10) = 1 by norm_num]
  rw [show w0_info.motors = [⟨(2, 0), 0, 0⟩, ⟨(-2, 0), 0, 0⟩] from rfl,
    show w0_info.motor_direction = [(1 : ℝ), 1] from rfl, w0_multiplier]
  rfl

/-- The per-frame step of the commanded w0 drive is 0.1 inches. -/
theorem w0_step (b : ℝ) :
    ({ w0_drive with move_buffer := b } : Drive).rotation_speed +
      vlen ({ w0_drive with move_buffer := b } : Drive).velocity = 1 / 10 := by
  show (0 : ℝ) + vlen ((0 : ℝ), 1 / 10) = 1 / 10
  rw [vlen_w0]
  norm_num

/-- C5 (amended).  For every drive and every accepted signed command
value: with a nonnegative per-frame amount the move buffer drains linearly
to 0 from either sign (forward commands clamp from above, reverse commands
from below); with zero bias the returned displacements and rotations sum
to the velocity direction (resp. rotation indicator) times the total
buffer decrease; and each zipped motor odometer changes by exactly that
decrease times its precomputed multiplier — all regardless of the
command's sign.  In the w0 configuration (velocity [0, 6] at frame rate
60, multiplier 1 for both motors) a commanded value of 12 depletes in 120
frames of 0.1 inches each, the displacements summing to (0, 12) and each
odometer increasing by 12; a reverse command of -12 likewise depletes in
120 frames, summing to (0, -12) with each odometer decreasing by 12. -/
theorem C5_conservation :
    (∀ (d : Drive) (n : ℕ), 0 ≤ d.rotation_speed + vlen d.velocity →
      (0 ≤ d.move_buffer →
        (move_updates d n).1.move_buffer =
          max (d.move_buffer - n * (d.rotation_speed + vlen d.velocity)) 0) ∧
      (d.move_buffer ≤ 0 →
        (move_updates d n).1.move_buffer =
          min (d.move_buffer + n * (d.rotation_speed + vlen d.velocity)) 0)) ∧
    (∀ (d : Drive) (n : ℕ), d.bias_linear = (0, 0) → d.bias_rotation = 0 →
      (move_updates d n).2.1.1 =
        d.velocity_direction.1 * (d.move_buffer - (move_updates d n).1.move_buffer) ∧
      (move_updates d n).2.1.2 =
        d.velocity_direction.2 * (d.move_buffer - (move_updates d n).1.move_buffer) ∧
      (move_updates d n).2.2 =
        (if d.rotation_speed ≠ 0 then (1 : ℝ) else 0) *
          (d.move_buffer - (move_updates d n).1.move_buffer)) ∧
    (∀ (d : Drive) (n : ℕ), d.motors.length = d.odometer_multiplier.length →
      (move_updates d n).1.motors =
        List.zipWith (fun m inc => { m with odometer :=
            (m.odometer + (d.move_buffer - (move_updates d n).1.move_buffer) * inc) })
          d.motors d.odometer_multiplier) ∧
    driveInit w0_info = some w0_drive ∧
    (move_updates { w0_drive with move_buffer := 12 } 120).1.move_buffer = 0 ∧
    (move_updates { w0_drive with move_buffer := 12 } 120).2.1 = (0, 12) ∧
    (move_updates { w0_drive with move_buffer := 12 } 120).2.2 = 0 ∧
    (move_updates { w0_drive with move_buffer := 12 } 120).1.motors =
      [⟨(2, 0), 0, 12⟩, ⟨(-2, 0), 0, 12⟩] ∧
    (move_updates { w0_drive with move_buffer := -12 } 120).1.move_buffer = 0 ∧
    (move_updates { w0_drive with move_buffer := -12 } 120).2.1 = (0, -12) ∧
    (move_updates { w0_drive with move_buffer := -12 } 120).1.motors =
      [⟨(2, 0), 0, -12⟩, ⟨(-2, 0), 0, -12⟩] := by
  have hs : (0 : ℝ) ≤ ({ w0_drive with move_buffer := (12 : ℝ) } : Drive).rotation_speed +
      vlen ({ w0_drive with move_buffer := (12 : ℝ) } : Drive).velocity := by
    rw [w0_step]
    norm_num
  have hsn : (0 : ℝ) ≤ ({ w0_drive with move_buffer := (-12 : ℝ) } : Drive).rotation_speed +
      vlen ({ w0_drive with move_buffer := (-12 : ℝ) } : Drive).velocity := by
    rw [w0_step]
    norm_num
  have hb : (0 : ℝ) ≤ ({ w0_drive with move_buffer := (12 : ℝ) } : Drive).move_buffer := by
    show (0 : ℝ) ≤ 12
    norm_num
  have hble : ({ w0_drive with move_buffer := (-12 : ℝ) } : Drive).move_buffer ≤ 0 := by
    show (-12 : ℝ) ≤ 0
    norm_num
  have hbuf : (move_updates { w0_drive with move_buffer := 12 } 120).1.move_buffer = 0 := by
    have h := move_updates_buffer 120 { w0_drive with move_buffer := 12 } hb hs
    rw [w0_step] at h
    refine h.trans ?_
    show max ((12 : ℝ) - ((120 : ℕ) : ℝ) * (1 / 10)) 0 = 0
    norm_num
  have hbufneg : (move_updates { w0_drive with move_buffer := -12 } 120).1.move_buffer = 0 := by
    have h := move_updates_buffer_neg 120 { w0_drive with move_buffer := -12 } hsn hble
    rw [w0_step] at h
    refine h.trans ?_
    show min ((-12 : ℝ) + ((120 : ℕ) : ℝ) * (1 / 10)) 0 = 0
    norm_num
  have hd1 : (move_updates { w0_drive with move_buffer := 12 } 120).2.1.1 = 0 := by
    have h := (move_updates_sum 120 { w0_drive with move_buffer := 12 } rfl rfl).1
    rw [hbuf] at h
    refine h.trans ?_
    show (0 : ℝ) * (12 - 0) = 0
    norm_num
  have hd2 : (move_updates { w0_drive with move_buffer := 12 } 120).2.1.2 = 12 := by
    have h := (move_updates_sum 120 { w0_drive with move_buffer := 12 } rfl rfl).2.1
    rw [hbuf] at h
    refine h.trans ?_
    show (1 : ℝ) * (12 - 0) = 12
    norm_num
  have hrot : (move_updates { w0_drive with move_buffer := 12 } 120).2.2 = 0 := by
    have h := (move_updates_sum 120 { w0_drive with move_buffer := 12 } rfl rfl).2.2
    rw [hbuf] at h
    refine h.trans ?_
    show (if (0 : ℝ) ≠ 0 then (1 : ℝ) else 0) * (12 - 0) = 0
    norm_num
  have hmots : (move_updates { w0_drive with move_buffer := 12 } 120).1.motors =
      [⟨(2, 0), 0, 12⟩, ⟨(-2, 0), 0, 12⟩] := by
    have h := move_updates_motors 120 { w0_drive with move_buffer := 12 } rfl
    rw [hbuf] at h
    refine h.trans ?_
    show List.zipWith (fun (m : Motor) (inc : ℝ) => { m with odometer :=
        (m.odometer + ((12 : ℝ) - 0) * inc) })
      ([⟨(2, 0), 0, 0⟩, ⟨(-2, 0), 0, 0⟩] : List Motor) ([1, 1] : List ℝ) = _
    simp only [List.zipWith]
    norm_num
  have hnd1 : (move_updates { w0_drive with move_buffer := -12 } 120).2.1.1 = 0 := by
    have h := (move_updates_sum 120 { w0_drive with move_buffer := -12 } rfl rfl).1
    rw [hbufneg] at h
    refine h.trans ?_
    show (0 : ℝ) * (-12 - 0) = 0
    norm_num
  have hnd2 : (move_updates { w0_drive with move_buffer := -12 } 120).2.1.2 = -12 := by
    have h := (move_updates_sum 120 { w0_drive with move_buffer := -12 } rfl rfl).2.1
    rw [hbufneg] at h
    refine h.trans ?_
    show (1 : ℝ) * (-12 - 0) = -12
    norm_num
  have hnmots : (move_updates { w0_drive with move_buffer := -12 } 120).1.motors =
      [⟨(2, 0), 0, -12⟩, ⟨(-2, 0), 0, -12⟩] := by
    have h := move_updates_motors 120 { w0_drive with move_buffer := -12 } rfl
    rw [hbufneg] at h
    refine h.trans ?_
    show List.zipWith (fun (m : Motor) (inc : ℝ) => { m with odometer :=
        (m.odometer + ((-12 : ℝ) - 0) * inc) })
      ([⟨(2, 0), 0, 0⟩, ⟨(-2, 0), 0, 0⟩] : List Motor) ([1, 1] : List ℝ) = _
    simp only [List.zipWith]
    norm_num
  exact ⟨fun d n hstep => ⟨fun hpos => move_updates_buffer n d hpos hstep,
      fun hneg => move_updates_buffer_neg n d hstep hneg⟩,
    fun d n => move_updates_sum n d,
    fun d n => move_updates_motors n d,
    driveInit_w0, hbuf, Prod.ext hd1 hd2, hrot, hmots,
    hbufneg, Prod.ext hnd1 hnd2, hnmots⟩

/-- C5 witness: the conservation laws applied to the commanded w0 drive
for 10 frames, in both directions — a forward command of 12 drops to 11
with summed displacement (0, 1) and each odometer at 1; a reverse command
of -12 rises to -11. -/
theorem C5_conservation_witness :
    (move_updates { w0_drive with move_buffer := 12 } 10).1.move_buffer = 11 ∧
    (move_updates { w0_drive with move_buffer := -12 } 10).1.move_buffer = -11 ∧
    (move_updates { w0_drive with move_buffer := 12 } 10).2.1.2 = 1 ∧
    (move_updates { w0_drive with move_buffer := 12 } 10).1.motors =
      [⟨(2, 0), 0, 1⟩, ⟨(-2, 0), 0, 1⟩] := by
  have hs : (0 : ℝ) ≤ ({ w0_drive with move_buffer := (12 : ℝ) } : Drive).rotation_speed +
      vlen ({ w0_drive with move_buffer := (12 : ℝ) } : Drive).velocity := by
    rw [w0_step]
    norm_num
  have hsn : (0 : ℝ) ≤ ({ w0_drive with move_buffer := (-12 : ℝ) } : Drive).rotation_speed +
      vlen ({ w0_drive with move_buffer := (-12 : ℝ) } : Drive).velocity := by
    rw [w0_step]
    norm_num
  have hbuf : (move_updates { w0_drive with move_buffer := 12 } 10).1.move_buffer = 11 := by
    have h := (C5_conservation.1 { w0_drive with move_buffer := 12 } 10 hs).1
      (by show (0 : ℝ) ≤ 12; norm_num)
    rw [w0_step] at h
    refine h.trans ?_
    show max ((12 : ℝ) - ((10 : ℕ) : ℝ) * (1 / 10)) 0 = 11
    norm_num
  refine ⟨hbuf, ?_, ?_, ?_⟩
  · have h := (C5_conservation.1 { w0_drive with move_buffer := -12 } 10 hsn).2
      (by show (-12 : ℝ) ≤ 0; norm_num)
    rw [w0_step] at h
    refine h.trans ?_
    show min ((-12 : ℝ) + ((10 : ℕ) : ℝ) * (1 / 10)) 0 = -11
    norm_num
  · have h := (C5_conservation.2.1 { w0_drive with move_buffer := 12 } 10 rfl rfl).2.1
    rw [hbuf] at h
    refine h.trans ?_
    show (1 : ℝ) * (12 - 11) = 1
    norm_num
  · have h := C5_conservation.2.2.1 { w0_drive with move_buffer := 12 } 10 rfl
    rw [hbuf] at h
    refine h.trans ?_
    show List.zipWith (fun (m : Motor) (inc : ℝ) => { m with odometer :=
        (m.odometer + ((12 : ℝ) - 11) * inc) })
      ([⟨(2, 0), 0, 0⟩, ⟨(-2, 0), 0, 0⟩] : List Motor) ([1, 1] : List ℝ) = _
    simp only [List.zipWith]
    norm_num

/-- C5 (counterexample).  The claimed 10-frame depletion at 1.2 inches per
frame is wrong for the w0 configuration: the drive initializes to 0.1
inches per frame, so after 10 frames the buffer still holds 11 of the
commanded 12 inches, and a frame displaces (0, 0.1), not 1.2 inches. -/
theorem C5_ten_frame_counterexample :
    driveInit w0_info = some w0_drive ∧
    (move_updates { w0_drive with move_buffer := 12 } 10).1.move_buffer = 11 ∧
    (11 : ℝ) ≠ 0 ∧
    (move_update { w0_drive with move_buffer := 12 }).2.1 = (0, 1 / 10) ∧
    ((1 : ℝ) / 10) ≠ 12 / 10 := by
  have hb : (0 : ℝ) ≤ ({ w0_drive with move_buffer := (12 : ℝ) } : Drive).move_buffer := by
    show (0 : ℝ) ≤ 12
    norm_num
  have hs : (0 : ℝ) ≤ ({ w0_drive with move_buffer := (12 : ℝ) } : Drive).rotation_speed +
      vlen ({ w0_drive with move_buffer := (12 : ℝ) } : Drive).velocity := by
    rw [w0_step]
    norm_num
  have hbuf : (move_updates { w0_drive with move_buffer := 12 } 10).1.move_buffer = 11 := by
    have h := move_updates_buffer 10 { w0_drive with move_buffer := 12 } hb hs
    rw [w0_step] at h
    refine h.trans ?_
    show max ((12 : ℝ) - ((10 : ℕ) : ℝ) * (1 / 10)) 0 = 11
    norm_num
  have hdisp := move_update_disp { w0_drive with move_buffer := 12 } hb
  rw [w0_step] at hdisp
  refine ⟨driveInit_w0, hbuf, by norm_num, Prod.ext ?_ ?_, by norm_num⟩
  · refine hdisp.1.trans ?_
    show (0 : ℝ) * min 12 (1 / 10) + min (12 : ℝ) (1 / 10) * 0 = 0
    norm_num
  · refine hdisp.2.1.trans ?_
    show (1 : ℝ) * min 12 (1 / 10) + min (12 : ℝ) (1 / 10) * 0 = 1 / 10
    rw [min_eq_right (by norm_num : (1 : ℝ) / 10 ≤ 12)]
    norm_num

/-- C6.  Drive.simulate refuses the command (and changes nothing) when any
drive move buffer on the robot is nonzero, and otherwise acknowledges and
stores the error-injected signed command value as the new move buffer. -/
theorem C6_command_gate (d : Drive) (bufs : List ℝ) (value g : ℝ) :
    ((∃ b ∈ bufs, b ≠ 0) → driveSimulate d bufs value g = (false, d)) ∧
    ((∀ b ∈ bufs, b = 0) →
      driveSimulate d bufs value g =
        (true, { d with move_buffer :=
            (value + g * (d.velocity_direction.1 * d.error_linear.1 +
              d.velocity_direction.2 * d.error_linear.2 +
              (if d.rotation_normalize ≠ 0 then
                d.rotation_normalize * d.error_rotation else 0)) * value) })) := by
  constructor
  · rintro ⟨b, hbm, hbne⟩
    rw [driveSimulate, if_pos]
    exact List.any_eq_true.mpr ⟨b, hbm, decide_eq_true hbne⟩
  · intro hall
    have hne : ¬(bufs.any (fun b => decide (b ≠ 0)) = true) := by
      intro hany
      obtain ⟨b, hbm, hbd⟩ := List.any_eq_true.mp hany
      exact (of_decide_eq_true hbd) (hall b hbm)
    rw [driveSimulate, if_neg hne, add_error, if_pos rfl]

/-- C6 witness: the w0 drive refuses a command of 12 while a buffer of 5 is
outstanding, and accepts it (storing exactly 12, its errors being zero)
when all robot buffers are zero. -/
theorem C6_command_gate_witness :
    driveSimulate w0_drive [5, 0] 12 0 = (false, w0_drive) ∧
    driveSimulate w0_drive [0, 0, 0] 12 0 =
      (true, { w0_drive with move_buffer := 12 }) := by
  constructor
  · exact (C6_command_gate w0_drive [5, 0] 12 0).1
      ⟨5, List.mem_cons_self 5 [0], by norm_num⟩
  · have h := (C6_command_gate w0_drive [0, 0, 0] 12 0).2 (by
      intro b hbm
      rcases List.mem_cons.mp hbm with h1 | h1
      · exact h1
      rcases List.mem_cons.mp h1 with h2 | h2
      · exact h2
      rcases List.mem_cons.mp h2 with h3 | h3
      · exact h3
      exact absurd h3 (List.not_mem_nil b))
    refine h.trans ?_
    have he : (12 : ℝ) + 0 * (w0_drive.velocity_direction.1 * w0_drive.error_linear.1 +
        w0_drive.velocity_direction.2 * w0_drive.error_linear.2 +
        (if w0_drive.rotation_normalize ≠ 0 then
          w0_drive.rotation_normalize * w0_drive.error_rotation else 0)) * 12 = 12 := by
      norm_num
    rw [he]

/-- C9.  When the info dict supplies min_range = m, the constructor sets
max_range to m as well (the max-range line reads the min_range key, and a
max_range entry is never consulted), the reading bounds become [m, m], and
every simulate reading is clamped to exactly m, whatever the environment
and the noise draw. -/
theorem C9_min_range_clamp (info : UltraInfo) (m : ℝ)
    (h : info.min_range = some m) :
    (ultrasonicInit info).max_range = m ∧
    (ultrasonicInit info).min_range = m ∧
    (ultrasonicInit info).reading_bounds = [m, m] ∧
    ∀ (B : BlockInfo) (reduced_walls : List (Seg ℝ)) (g : ℝ),
      ultrasonicSimulate (ultrasonicInit info) B reduced_walls g = m := by
  have h1 : (ultrasonicInit info).max_range = m := by
    show info.min_range.getD 433 = m
    rw [h]
    rfl
  have h2 : (ultrasonicInit info).min_range = m := by
    show info.min_range.getD 0 = m
    rw [h]
    rfl
  have h3 : (ultrasonicInit info).reading_bounds = [m, m] := by
    show [info.min_range.getD 0, info.min_range.getD 433] = [m, m]
    rw [h]
    rfl
  refine ⟨h1, h2, h3, fun B reduced_walls g => ?_⟩
  rw [ultrasonicSimulate, h3, add_error,
    if_neg (by exact List.cons_ne_nil _ _)]
  show max (min (m : ℝ) _) m = m
  exact max_eq_right (min_le_left _ _)

/-- C9 witness: a sensor built with min_range 10 — and an explicit
max_range entry of 999, which is ignored — gets max_range 10, bounds
[10, 10], and reads exactly 10 in an empty environment. -/
theorem C9_min_range_clamp_witness :
    (ultrasonicInit ⟨(0, 0), 0, none, none, none, some 10, some 999, none⟩).max_range = 10 ∧
    (ultrasonicInit ⟨(0, 0), 0, none, none, none, some 10, some 999, none⟩).reading_bounds =
      [10, 10] ∧
    ultrasonicSimulate (ultrasonicInit ⟨(0, 0), 0, none, none, none, some 10, some 999, none⟩)
      ⟨[], 0, (1, 0)⟩ [] 0 = 10 := by
  have h := C9_min_range_clamp ⟨(0, 0), 0, none, none, none, some 10, some 999, none⟩ 10 rfl
  exact ⟨h.1, h.2.2.1, h.2.2.2 ⟨[], 0, (1, 0)⟩ [] 0⟩

/-- Square roots commute with the running list minimum. -/
theorem listMinR_sqrt : ∀ l : List ℝ, Real.sqrt (listMinR l) = listMinR (l.map Real.sqrt)
  | [] => by
    show Real.sqrt 0 = 0
    exact Real.sqrt_zero
  | [x] => rfl
  | x :: y :: rest => by
    show Real.sqrt (min x (listMinR (y :: rest))) = _
    rw [Monotone.map_min (fun a b h => Real.sqrt_le_sqrt h), listMinR_sqrt (y :: rest)]
    rfl

/-- Rotating (0, m) by -90 degrees gives (m, 0). -/
theorem rotateDeg_neg90 (m : ℝ) : rotateDeg (0, m) (-90) = (m, 0) := by
  rw [rotateDeg, show (-90 : ℝ) * Real.pi / 180 = -(Real.pi / 2) by ring]
  rw [Real.cos_neg, Real.sin_neg, Real.cos_pi_div_two, Real.sin_pi_div_two]
  norm_num

/-- Rotating (0, m) by 90 degrees gives (-m, 0). -/
theorem rotateDeg_pos90 (m : ℝ) : rotateDeg (0, m) 90 = (-m, 0) := by
  rw [rotateDeg, show (90 : ℝ) * Real.pi / 180 = Real.pi / 2 by ring]
  rw [Real.cos_pi_div_two, Real.sin_pi_div_two]
  norm_num

/-- C2 (amended).  The reading Ultrasonic.simulate returns is the
error-clamped MINIMUM of the per-ray nearest-hit ranges (square roots
commute with the list minimum), and a ray that hits no wall keeps its
initial full length, so it defaults to max_range. -/
theorem C2_minimum :
    (∀ (u : Ultrasonic) (B : BlockInfo) (reduced_walls : List (Seg ℝ)) (g : ℝ),
      ultrasonicSimulate u B reduced_walls g =
        add_error
          (listMinR ((define_rays u).map (fun r => Real.sqrt
            ((scanRay u.position_global
              (if block_visible u B then B.square ++ reduced_walls else reduced_walls)
              r (u.max_range ^ 2)).2))))
          u.error_pct g u.reading_bounds) ∧
    (∀ (pos : Pt ℝ) (walls : List (Seg ℝ)) (ray : Seg ℝ) (i : ℝ),
      (∀ w ∈ walls, collision ray w = []) → scanRay pos walls ray i = (ray, i)) := by
  constructor
  · intro u B reduced_walls g
    rw [ultrasonicSimulate, listMinR_sqrt, List.map_map]
    rfl
  · intro pos walls
    induction walls with
    | nil => intro ray i _; rfl
    | cons w ws ih =>
      intro ray i h
      have hw : scanWall pos (ray, i) w = (ray, i) := by
        simp only [scanWall]
        rw [h w (List.mem_cons_self w ws)]
      show List.foldl (scanWall pos) (scanWall pos (ray, i) w) ws = (ray, i)
      rw [hw]
      exact ih ray i (fun v hv => h v (List.mem_cons_of_mem w hv))

/-- C2 witness: a ray scanned against no walls keeps its full length. -/
theorem C2_minimum_witness :
    scanRay (0, 0) [] ((0, 0), (1, 0)) 9 = (((0, 0), (1, 0)), 9) :=
  C2_minimum.2 (0, 0) [] ((0, 0), (1, 0)) 9
    (fun w hw => absurd hw (List.not_mem_nil w))

/-- The two rays of the two-ray sensor point along the positive and
negative x axis. -/
theorem two_ray_rays :
    define_rays u_two_ray = [((0, 0), (433, 0)), ((0, 0), (-433, 0))] := by
  rw [define_rays]
  rw [show u_two_ray.num_rays = 2 from rfl]
  rw [show List.range 2 = [0, 1] from rfl]
  simp only [List.map]
  norm_num [u_two_ray, rotateDeg_neg90, rotateDeg_pos90, Prod.mk.injEq,
    -Prod.mk_zero_zero]

/-- The full-circle sensor sees the block (its elevation angle 0 is within
half the 360-degree beamwidth). -/
theorem two_ray_sees_block : block_visible u_two_ray mid_block = true := by
  rw [block_visible]
  rw [show u_two_ray.height - mid_block.height = (0 : ℝ) from by
    show (3 : ℝ) - 3 = 0; norm_num]
  rw [zero_div, Real.arctan_zero, zero_mul, zero_div]
  rw [if_pos (by show (0 : ℝ) ≤ 360 / 2; norm_num)]

set_option maxHeartbeats 1600000 in
/-- The +x ray passes the block and stops on the wall x = 3 at (3, 0),
with squared length 9. -/
theorem two_ray_scan0 :
    scanRay ((0 : ℝ), 0) (mid_block.square ++ [((3, -1), (3, 1))])
      ((0, 0), (433, 0)) (433 ^ 2) = (((0, 0), (3, 0)), 9) := by
  norm_num [scanRay, scanWall, mid_block, List.foldl, collision, intersectSegs,
    collinearPts, orientation, orientVal, on_segment, det, closest_fast,
    closestFastAux, -Prod.mk_zero_zero, Prod.mk.injEq]

set_option maxHeartbeats 1600000 in
/-- The -x ray hits nothing and keeps its full squared length 433². -/
theorem two_ray_scan1 :
    scanRay ((0 : ℝ), 0) (mid_block.square ++ [((3, -1), (3, 1))])
      ((0, 0), (-433, 0)) (433 ^ 2) = (((0, 0), (-433, 0)), 433 ^ 2) := by
  norm_num [scanRay, scanWall, mid_block, List.foldl, collision, intersectSegs,
    collinearPts, orientation, orientVal, on_segment, det, closest_fast,
    closestFastAux, -Prod.mk_zero_zero, Prod.mk.injEq]

/-- C2 (counterexample).  For the two-ray full-circle sensor at the origin
with a wall at x = 3 (and the block at (0, 50), visible but missed by both
rays), the per-ray nearest-hit ranges are [3, 433] — the -x ray defaults
to max_range — whose statistical median is 218, yet simulate returns 3:
the minimum, not the median. -/
theorem C2_median_counterexample :
    ultrasonicInit ⟨(0, 0), 0, none, some 360, some 2, none, none, some 0⟩ = u_two_ray ∧
    (define_rays u_two_ray).map (fun r => Real.sqrt
      ((scanRay u_two_ray.position_global (mid_block.square ++ [((3, -1), (3, 1))]) r
        (u_two_ray.max_range ^ 2)).2)) = [3, 433] ∧
    medianSpec [3, 433] = 218 ∧
    ultrasonicSimulate u_two_ray mid_block [((3, -1), (3, 1))] 0 = 3 ∧
    (3 : ℝ) ≠ 218 := by
  refine ⟨rfl, ?_, ?_, ?_, by norm_num⟩
  · rw [two_ray_rays]
    simp only [List.map]
    rw [show u_two_ray.position_global = ((0 : ℝ), 0) from rfl,
      show u_two_ray.max_range = (433 : ℝ) from rfl]
    rw [two_ray_scan0, two_ray_scan1]
    rw [show (9 : ℝ) = 3 ^ 2 by norm_num,
      Real.sqrt_sq (by norm_num : (0 : ℝ) ≤ 3),
      Real.sqrt_sq (by norm_num : (0 : ℝ) ≤ 433)]
  · rw [medianSpec]
    norm_num [List.mergeSort, List.merge, List.getD]
  · rw [ultrasonicSimulate, two_ray_rays, two_ray_sees_block, if_pos rfl]
    simp only [List.map]
    rw [show u_two_ray.position_global = ((0 : ℝ), 0) from rfl,
      show u_two_ray.max_range = (433 : ℝ) from rfl]
    rw [two_ray_scan0, two_ray_scan1]
    rw [show listMinR [(9 : ℝ), 433 ^ 2] = 9 from by
      show min (9 : ℝ) (433 ^ 2) = 9; norm_num]
    rw [show (9 : ℝ) = 3 ^ 2 by norm_num,
      Real.sqrt_sq (by norm_num : (0 : ℝ) ≤ 3)]
    rw [show u_two_ray.error_pct = (0 : ℝ) from rfl,
      show u_two_ray.reading_bounds = [(0 : ℝ), 433] from rfl]
    rw [add_error, if_neg (List.cons_ne_nil _ _)]
    norm_num [List.getD]

/-- update_outline establishes the outline invariant. -/
theorem update_outline_ok (r : Robot) : outline_ok (update_outline r) :=
  ⟨rfl, rfl⟩

/-- Rotating by 0 degrees is the identity. -/
theorem rotateDeg_zero (v : ℝ × ℝ) : rotateDeg v 0 = v := by
  rw [rotateDeg]
  norm_num

/-- Rotating by 90 degrees sends (x, y) to (-y, x). -/
theorem rotateDeg_90 (v : ℝ × ℝ) : rotateDeg v 90 = (-v.2, v.1) := by
  rw [rotateDeg, show (90 : ℝ) * Real.pi / 180 = Real.pi / 2 by ring]
  rw [Real.cos_pi_div_two, Real.sin_pi_div_two]
  norm_num

/-- C10.  Every exit path of Robot.move (committed or rolled back) and
Robot.teleport (accepted, out of bounds, or colliding) ends in
update_outline, so the cached world outline always equals the local
outline rotated by the current rotation and translated by the current
position, and the segment cache is its closed polygon. -/
theorem C10_outline_invariant (r : Robot) (velocity : Pt ℝ)
    (rotation x y angle : ℝ) (walls : List (Seg ℝ)) (grid : List (List ℤ)) :
    outline_ok (move r velocity rotation walls) ∧
    outline_ok (teleport r x y angle walls grid).2 := by
  constructor
  · simp only [move]
    split
    · exact update_outline_ok _
    · exact update_outline_ok _
  · simp only [teleport]
    split
    · exact update_outline_ok _
    · split
      · exact update_outline_ok _
      · exact update_outline_ok _

set_option maxHeartbeats 1600000 in
/-- C1 (code bug).  Moving the origin square robot by velocity (1, 0) with
rotation 90 into the wall x = 1 triggers the collision rollback, but the
rollback subtracts the velocity rotated by the already-incremented
rotation: the rotation returns to 0 while the position lands at (1, -1),
not at the original (0, 0). -/
theorem C1_rollback_bug :
    sq_robot.position = (0, 0) ∧
    sq_robot.rotation = 0 ∧
    check_collision_walls_fast (update_outline { sq_robot with
      position := (sq_robot.position.1 + (rotateDeg (1, 0) sq_robot.rotation).1,
                   sq_robot.position.2 + (rotateDeg (1, 0) sq_robot.rotation).2),
      rotation := sq_robot.rotation + 90 }) [((1, -3), (1, 3))] = true ∧
    (move sq_robot (1, 0) 90 [((1, -3), (1, 3))]).position = (1, -1) ∧
    (move sq_robot (1, 0) 90 [((1, -3), (1, 3))]).rotation = 0 ∧
    ((1 : ℝ), (-1 : ℝ)) ≠ ((0 : ℝ), (0 : ℝ)) := by
  refine ⟨rfl, rfl, ?_, ?_, ?_, by intro h; exact absurd (congrArg Prod.fst h) (by norm_num)⟩ <;>
    norm_num [move, sq_robot, update_outline, outlineGlobal, closedSegments,
      check_collision_walls_fast, check_collision_fast, on_segment, orientation,
      orientVal, rotateDeg_zero, rotateDeg_90, List.map, List.zip, List.zipWith,
      List.getLastD, List.any, -Prod.mk_zero_zero, Prod.mk.injEq]

end Simmer
